import Mathlib

/-!
Verification of the g-raph streaming graph-coloring library.

Each Rust component that the claims concern is shallowly embedded as an
executable Lean definition translated from the source:

* `FiniteField.*`    — src/utils/finite_field.rs (prime field `F_p`; the
  `u64`/`i64` machine integers are modelled as `Nat`/`Int`, with the one
  place where `u64` wrap-around matters made explicit as `% 2^64`),
* `OneSparseRecovery.*` — src/graph/streaming/sparse_recovery/one_sparse.rs,
* `SparseRecovery.*` — src/graph/streaming/sparse_recovery/s_sparse.rs,
* `FieldHasher.*`    — src/utils/hash_function.rs,
* `FField.*`         — src/utils/finite_field.rs (the `GF(2^n)` field),
* `Edge.*`           — src/graph/edge.rs,
* `Graph.*`          — src/graph.rs and src/graph/static_a/coloring.rs,
* `StreamColoring.*` — src/graph/streaming/coloring.rs.

Randomness (`rand::thread_rng`) is made explicit: every randomly drawn value
(prime order, field base `r`, hasher coefficients `a`, `b`) becomes a
parameter of the corresponding constructor, quantified in the theorems.
-/

/-! ## Prime finite field (src/utils/finite_field.rs, `FiniteField`)

The Rust struct stores only the order `p`; elements are raw `u64` values.
Operations are translated one-for-one.  `mod_p_i64`'s negative branch is
`self.order - val.abs() as u64`, a `u64` subtraction with **no** reduction
mod `p`; when `|val| > order` that subtraction wraps around `2^64`
(release-mode semantics), which the model makes explicit. -/

namespace FiniteField

/-- Translation of `FiniteField::mod_p`: `val.rem_euclid(self.order)`. -/
def mod_p (order val : Nat) : Nat := val % order

/-- Translation of `FiniteField::mod_p_i64` (same code as the `mod_p_i32`
used by one-sparse recovery, at width 64): a nonnegative value is reduced
mod `p`; a negative value is lifted as `order - |val|` in `u64`, which
wraps modulo `2^64` when `|val| > order`. -/
def mod_p_i64 (order : Nat) (val : Int) : Nat :=
  if 0 ≤ val then mod_p order val.toNat
  else (order + 2 ^ 64 - val.natAbs) % 2 ^ 64

/-- Translation of `FiniteField::add`: widen, add, reduce mod `p`. -/
def add (order v1 v2 : Nat) : Nat := (v1 + v2) % order

/-- Translation of `FiniteField::mul`: widen, multiply, reduce mod `p`. -/
def mul (order v1 v2 : Nat) : Nat := (v1 * v2) % order

/-- Translation of `FiniteField::neg`: `self.order - u64::from(v1)`.
Note the source performs no reduction mod `p` afterwards. -/
def neg (order v1 : Nat) : Nat := order - v1

/-- Translation of `FiniteField::pow`: fast exponentiation.  The `expo = 0`
base case returns the raw element `1` (unreduced, exactly as the source). -/
def pow (order base expo : Nat) : Nat :=
  if h : expo = 0 then 1
  else if expo % 2 = 1 then mul order base (pow order base (expo - 1))
  else pow order (mul order base base) (expo / 2)
termination_by expo
decreasing_by
· omega
· omega

theorem pow_zero_eval (order base : Nat) : pow order base 0 = 1 := by
  rw [pow]
  simp

theorem pow_le_order (order base : Nat) (expo : Nat) (h : 1 ≤ order) :
    pow order base expo ≤ order := by
  induction expo using Nat.strong_induction_on generalizing base with
  | _ expo ih =>
    rw [pow]
    by_cases h0 : expo = 0
    · simp [h0, h]
    · simp only [dif_neg h0]
      by_cases h1 : expo % 2 = 1
      · simp only [if_pos h1]
        exact Nat.le_of_lt (Nat.mod_lt _ (by omega))
      · simp only [if_neg h1]
        exact ih (expo / 2) (by omega) _

/-- Congruence fact for `pow`: it computes `base ^ expo` modulo the order. -/
theorem pow_cast (order base expo : Nat) :
    ((pow order base expo : Nat) : ZMod order) = (base : ZMod order) ^ expo := by
  induction expo using Nat.strong_induction_on generalizing base with
  | _ expo ih =>
    rw [pow]
    by_cases h0 : expo = 0
    · simp [h0]
    · simp only [dif_neg h0]
      by_cases h1 : expo % 2 = 1
      · simp only [if_pos h1]
        rw [mul, ZMod.natCast_mod, Nat.cast_mul, ih (expo - 1) (by omega)]
        rw [← pow_succ']
        congr 1
        omega
      · simp only [if_neg h1]
        rw [ih (expo / 2) (by omega), mul, ZMod.natCast_mod, Nat.cast_mul,
          ← sq, ← pow_mul]
        congr 1
        omega

theorem mod_p_i64_cast (order : Nat) (val : Int) (hlt : order < 2 ^ 64)
    (h : -(order : Int) ≤ val) :
    ((mod_p_i64 order val : Nat) : ZMod order) = (val : ZMod order) := by
  unfold mod_p_i64 mod_p
  by_cases hpos : 0 ≤ val
  · rw [if_pos hpos, ZMod.natCast_mod]
    rw [← Int.toNat_of_nonneg hpos]
    push_cast
    rfl
  · rw [if_neg hpos]
    have habs : val.natAbs ≤ order := by omega
    have hrw : order + 2 ^ 64 - val.natAbs = (order - val.natAbs) + 2 ^ 64 := by
      omega
    rw [hrw, Nat.add_mod_right, Nat.mod_eq_of_lt (by omega)]
    rw [Nat.cast_sub habs, ZMod.natCast_self, zero_sub]
    have h3 : (val.natAbs : Int) = -val := by omega
    have h2 : ((val.natAbs : Nat) : ZMod order) = ((-val : Int) : ZMod order) := by
      rw [← h3, Int.cast_natCast]
    rw [h2]
    push_cast
    ring

end FiniteField

/-! ## One-sparse recovery (sparse_recovery/one_sparse.rs)

The fingerprint `(l, z, p)` runs over machine integers `i32` and a field
element; `l` and `z` are modelled as unbounded `Int`, and every theorem
about the recovery carries explicit hypotheses keeping the running values
inside `(-2^24, 2^24)` — strictly inside the `i32` range, so `Int` agrees
with the source's wrapping `i32` on the whole quantified domain.  The field
element `p` is a `Nat` kept in `[0, order)` by `FiniteField.add`.  The
random base `r` drawn by `init_with_order` is an explicit parameter. -/

structure OneSparseRecovery where
  l : Int
  z : Int
  p : Nat
  r : Nat
  n : Nat
  order : Nat

/-- Output type of a one-sparse recovery query (one_sparse.rs,
`OneSparseRecoveryOutput`). -/
inductive OneSparseRecoveryOutput where
  | Zero
  | VeryLikely (lam : Int) (i : Nat)
  | NotOneSparse
deriving DecidableEq, Repr

/-- Translation of `OneSparseRecovery::init_with_order`, with the randomly
sampled base `r ∈ [0, order)` passed explicitly. -/
def OneSparseRecovery.init_with_order (n order r : Nat) : OneSparseRecovery :=
  { l := 0, z := 0, p := 0, r := r, n := n, order := order }

/-- Translation of `OneSparseRecovery::feed`: update the fingerprint with a
token `(coordinate, value)`, where `value` encodes `+1`/`-1`.  `l` and `z`
are `i32` in the source (`z += value * coordinate as i32`); the theorems'
hypotheses keep both below `2^24` in magnitude at every step, where the
unbounded `Int` model is exact. -/
def OneSparseRecovery.feed (st : OneSparseRecovery) (token : Nat × Bool) :
    OneSparseRecovery :=
  let coordinate := token.1
  let value := token.2
  let valueInt : Int := if value then 1 else -1
  let power := FiniteField.pow st.order st.r coordinate
  { st with
    l := st.l + valueInt
    z := st.z + valueInt * coordinate
    p := if value then FiniteField.add st.order st.p power
         else FiniteField.add st.order st.p (FiniteField.neg st.order power) }

/-- Feeding a whole stream of tokens, first to last. -/
def OneSparseRecovery.feedAll (st : OneSparseRecovery)
    (tokens : List (Nat × Bool)) : OneSparseRecovery :=
  tokens.foldl OneSparseRecovery.feed st

/-- Translation of `OneSparseRecovery::query`.  The source tests whether
`divided = z as f32 / l as f32` is an integer (`(divided.round() -
divided).abs() > f32::EPSILON`) and uses `divided.round() as u64` as the
recovered index; this is modelled as the exact divisibility test `l ∣ z`
with quotient `z / l`, and the `u64` cast as `Int.toNat`.  Whenever `|z|`
and `|l|` are below `2^24` (so both casts to `f32` are exact) and `l`
divides `z`, the `f32` division is exact and rounds to the true quotient,
so the model coincides with the source bit for bit; the theorems about
`query` confine themselves to that region through explicit hypotheses.
(For quotients at or beyond `2^24` the `f32` arithmetic can misround and
the source may answer `NotOneSparse` or a wrong index; no theorem here
speaks about that region.) -/
def OneSparseRecovery.query (st : OneSparseRecovery) : OneSparseRecoveryOutput :=
  if st.p = 0 ∧ st.z = 0 ∧ st.l = st.z then .Zero
  else
    let divided : Int := st.z / st.l
    if ¬ st.l ∣ st.z ∨
        st.p ≠ FiniteField.mul st.order (FiniteField.mod_p_i64 st.order st.l)
          (FiniteField.pow st.order st.r divided.toNat) then
      .NotOneSparse
    else .VeryLikely st.l divided.toNat

/-- Net weight of a token stream: number of insertions minus deletions. -/
def netWeight (tokens : List (Nat × Bool)) : Int :=
  (tokens.map fun t => if t.2 then (1 : Int) else -1).sum

/-! ## Claim C5: range of the prime-field operations -/

/-- C5 counterexample: the claim "every prime-field operation returns a value
in `[0, p)`" fails on the source.  With `p = 5`: `neg(0) = 5 - 0 = 5`, which
is not in `[0, 5)`; and the signed lift of `-7` underflows the `u64`
subtraction `order - val.abs()`, wrapping to `2^64 - 2`. -/
theorem finite_field_range_counterexample :
    FiniteField.neg 5 0 = 5 ∧ ¬ FiniteField.neg 5 0 < 5 ∧
    FiniteField.mod_p_i64 5 (-7) = 2 ^ 64 - 2 ∧
    ¬ FiniteField.mod_p_i64 5 (-7) < 5 := by
  refine ⟨rfl, by decide, ?_, ?_⟩ <;> decide

/-- C5 (amended): `add` and `mul` always reduce into `[0, p)`; `neg x = p - x`
lies in `[0, p)` for `x ∈ (0, p)` (but `neg 0 = p`); and the signed lift
`mod_p_i64` lies in `[0, p)` for every integer `i ≥ -p` (for `i < -p` the
`u64` subtraction wraps). -/
theorem finite_field_ops_in_range (order x y : Nat) (i : Int)
    (hord : 0 < order) (h64 : order < 2 ^ 64) (hx : 0 < x)
    (hi : -(order : Int) ≤ i) :
    FiniteField.add order x y < order ∧
    FiniteField.mul order x y < order ∧
    FiniteField.neg order x < order ∧
    FiniteField.mod_p_i64 order i < order := by
  refine ⟨Nat.mod_lt _ hord, Nat.mod_lt _ hord, ?_, ?_⟩
  · unfold FiniteField.neg
    omega
  · unfold FiniteField.mod_p_i64 FiniteField.mod_p
    by_cases hpos : 0 ≤ i
    · rw [if_pos hpos]
      exact Nat.mod_lt _ hord
    · rw [if_neg hpos]
      omega

/-- Witness for `finite_field_ops_in_range` at `p = 5`, `x = 2`, `y = 3`,
`i = -4`. -/
theorem finite_field_ops_in_range_witness :
    FiniteField.add 5 2 3 < 5 ∧ FiniteField.mul 5 2 3 < 5 ∧
    FiniteField.neg 5 2 < 5 ∧ FiniteField.mod_p_i64 5 (-4) < 5 :=
  finite_field_ops_in_range 5 2 3 (-4) (by norm_num) (by norm_num)
    (by norm_num) (by norm_num)

/-! ## Claim C3: one-sparse recovery on a single-coordinate stream -/

/-- Fingerprint evolution when every token of the stream carries the same
coordinate `i`: `l` accumulates the net weight, `z` accumulates `weight · i`,
and `p` stays reduced and congruent to `weight · r^i` mod the order. -/
theorem OneSparseRecovery.feedAll_const_coordinate
    (i : Nat) (tokens : List (Nat × Bool)) (st : OneSparseRecovery)
    (hall : ∀ t ∈ tokens, t.1 = i) (hord : 1 ≤ st.order) (hp : st.p < st.order) :
    (st.feedAll tokens).l = st.l + netWeight tokens ∧
    (st.feedAll tokens).z = st.z + netWeight tokens * i ∧
    (st.feedAll tokens).r = st.r ∧
    (st.feedAll tokens).order = st.order ∧
    (st.feedAll tokens).p < st.order ∧
    ((st.feedAll tokens).p : ZMod st.order) =
      (st.p : ZMod st.order) +
        (netWeight tokens : ZMod st.order) * (st.r : ZMod st.order) ^ i := by
  induction tokens generalizing st with
  | nil =>
    simp [OneSparseRecovery.feedAll, netWeight]
    exact hp
  | cons t rest ih =>
    have hti : t.1 = i := hall t (List.mem_cons_self t rest)
    have hrest : ∀ u ∈ rest, u.1 = i := fun u hu => hall u (List.mem_cons_of_mem t hu)
    have hfeed_l : (st.feed t).l = st.l + (if t.2 then (1 : Int) else -1) := rfl
    have hfeed_z : (st.feed t).z = st.z + (if t.2 then (1 : Int) else -1) * t.1 := rfl
    have hfeed_r : (st.feed t).r = st.r := rfl
    have hfeed_o : (st.feed t).order = st.order := rfl
    have hpow_le : FiniteField.pow st.order st.r i ≤ st.order :=
      FiniteField.pow_le_order st.order st.r i hord
    have hfeed_plt : (st.feed t).p < st.order := by
      unfold OneSparseRecovery.feed
      dsimp only
      split <;> exact Nat.mod_lt _ (by omega)
    have hfeed_pcast : ((st.feed t).p : ZMod st.order) =
        (st.p : ZMod st.order) +
          (if t.2 then (1 : Int) else -1) * (st.r : ZMod st.order) ^ i := by
      unfold OneSparseRecovery.feed
      dsimp only
      rw [hti]
      by_cases hb : t.2
      · rw [if_pos hb, if_pos hb]
        unfold FiniteField.add
        rw [ZMod.natCast_mod, Nat.cast_add, FiniteField.pow_cast]
        push_cast
        ring
      · rw [if_neg hb, if_neg hb]
        unfold FiniteField.add FiniteField.neg
        rw [ZMod.natCast_mod, Nat.cast_add, Nat.cast_sub hpow_le,
          FiniteField.pow_cast, ZMod.natCast_self, zero_sub]
        push_cast
        ring
    have hAll : st.feedAll (t :: rest) = (st.feed t).feedAll rest := rfl
    obtain ⟨ihl, ihz, ihr, iho, ihplt, ihpcast⟩ :=
      ih (st.feed t) hrest (by rw [hfeed_o]; exact hord) (by rw [hfeed_o]; exact hfeed_plt)
    rw [hfeed_o] at ihplt ihpcast
    have hnw : netWeight (t :: rest) = (if t.2 then (1 : Int) else -1) + netWeight rest := by
      unfold netWeight
      simp
    refine ⟨?_, ?_, ?_, ?_, ?_, ?_⟩
    · rw [hAll, ihl, hfeed_l, hnw]; ring
    · rw [hAll, ihz, hfeed_z, hnw, hti]; ring
    · rw [hAll, ihr, hfeed_r]
    · rw [hAll, iho, hfeed_o]
    · rw [hAll]; exact ihplt
    · rw [hAll, ihpcast, hfeed_pcast, hfeed_r, hnw]
      push_cast
      ring

/-- Equality of reduced residues from equality of their images in `ZMod`. -/
theorem nat_eq_of_zmod_cast_eq (order a b : Nat) (hord : 0 < order)
    (ha : a < order) (hb : b < order)
    (h : (a : ZMod order) = (b : ZMod order)) : a = b := by
  have : NeZero order := ⟨by omega⟩
  have hv := congrArg ZMod.val h
  rwa [ZMod.val_cast_of_lt ha, ZMod.val_cast_of_lt hb] at hv

/-- C3 (corrected): a one-sparse recovery fed a stream whose tokens all carry
the same coordinate `i < n` with nonzero net weight `m` answers
`VeryLikely(m, i)` — provided additionally that `m ≥ -p` and that the
running net weight `w` after every prefix of the stream satisfies
`|w| * (i + 1) < 2^24`.  The first proviso is forced by
`one_sparse_negative_weight_counterexample`: for `m < -p` the signed lift
`order - l.abs()` in `query` underflows `u64` and the check fails.  The
second confines the fingerprint counters `l = w` and `z = w * i` to
`(-2^24, 2^24)` at every step, the region where the source's `i32`
arithmetic and the `f32` quotient test of `query` are exact (beyond it the
`f32` division may misround, e.g. a single insertion at `i = 2^25 + 1` is
answered with `NotOneSparse` or a wrong index). -/
theorem one_sparse_single_coordinate_query
    (n order r i : Nat) (tokens : List (Nat × Bool))
    (hord : Nat.Prime order) (h64 : order < 2 ^ 64) (hr : r < order)
    (hi : i < n) (hall : ∀ t ∈ tokens, t.1 = i)
    (hm : netWeight tokens ≠ 0)
    (hge : -(order : Int) ≤ netWeight tokens)
    (hexact : ∀ j : Nat, (netWeight (tokens.take j)).natAbs * (i + 1) < 2 ^ 24) :
    ((OneSparseRecovery.init_with_order n order r).feedAll tokens).query =
      OneSparseRecoveryOutput.VeryLikely (netWeight tokens) i := by
  have hord1 : 1 ≤ order := hord.one_lt.le.trans' (by omega)
  set st0 := OneSparseRecovery.init_with_order n order r with hst0
  obtain ⟨hl, hz, hrr, ho, hplt, hpcast⟩ :=
    OneSparseRecovery.feedAll_const_coordinate i tokens st0 hall
      (by simpa [hst0, OneSparseRecovery.init_with_order] using hord.one_lt.le.trans' (by omega))
      (by simp [hst0, OneSparseRecovery.init_with_order]; omega)
  set st := st0.feedAll tokens with hst
  have hst0o : st0.order = order := rfl
  have hst0r : st0.r = r := rfl
  rw [hst0o] at hplt
  rw [hst0o, hst0r] at hpcast
  simp only [hst0, OneSparseRecovery.init_with_order] at hl hz
  rw [zero_add] at hl hz
  set m := netWeight tokens with hmdef
  have hcast : (st.p : ZMod order) = (m : ZMod order) * (r : ZMod order) ^ i := by
    rw [hpcast]
    norm_num [hst0, OneSparseRecovery.init_with_order]
  unfold OneSparseRecovery.query
  dsimp only
  rw [if_neg, hrr, ho, hst0o, hst0r]
  · have hdvd : st.l ∣ st.z := by
      rw [hl, hz]
      exact Dvd.intro i rfl
    have hdiv : st.z / st.l = (i : Int) := by
      rw [hl, hz]
      exact Int.mul_ediv_cancel_left _ hm
    have htoNat : (st.z / st.l).toNat = i := by
      rw [hdiv]
      exact Int.toNat_natCast i
    have heq : st.p =
        FiniteField.mul order (FiniteField.mod_p_i64 order st.l)
          (FiniteField.pow order r (st.z / st.l).toNat) := by
      apply nat_eq_of_zmod_cast_eq order _ _ (by omega) hplt
        (Nat.mod_lt _ (by omega))
      rw [htoNat, hcast]
      rw [ZMod.natCast_mod, Nat.cast_mul, FiniteField.pow_cast,
        FiniteField.mod_p_i64_cast order st.l h64 (by rw [hl]; exact hge), hl]
    rw [if_neg]
    · rw [htoNat, hl]
    · push_neg
      exact ⟨hdvd, heq⟩
  · rintro ⟨hp0, hz0, hlz⟩
    rw [hz] at hz0
    rw [hl, hz] at hlz
    rcases mul_eq_zero.mp hz0 with h | h
    · exact hm h
    · rw [hz0] at hlz
      exact hm hlz

/-- Witness for `one_sparse_single_coordinate_query`: a single insertion of
coordinate `0` over `n = 1`, prime `3`, base `1` recovers weight `1` at
index `0`. -/
theorem one_sparse_single_coordinate_query_witness :
    ((OneSparseRecovery.init_with_order 1 3 1).feedAll [(0, true)]).query =
      OneSparseRecoveryOutput.VeryLikely 1 0 := by
  have h := one_sparse_single_coordinate_query 1 3 1 0 [(0, true)]
    (by norm_num) (by norm_num) (by norm_num) (by norm_num)
    (by simp) (by decide) (by decide)
    (by
      intro j
      cases j with
      | zero => decide
      | succ j =>
        simp [netWeight, List.take_succ_cons])
  simpa [netWeight] using h

/-- C3 counterexample: the claim as stated (arbitrary nonzero net weight)
fails.  Over `n = 2` with prime order `3` and base `r = 1`, four deletions of
coordinate `0` give net weight `-4 < -3`; `query`'s signed lift
`order - l.abs()` wraps around `2^64`, the fingerprint check fails, and the
recovery answers `NotOneSparse` instead of `VeryLikely(-4, 0)`. -/
theorem one_sparse_negative_weight_counterexample :
    netWeight [(0, false), (0, false), (0, false), (0, false)] = -4 ∧
    ((OneSparseRecovery.init_with_order 2 3 1).feedAll
        [(0, false), (0, false), (0, false), (0, false)]).query =
      OneSparseRecoveryOutput.NotOneSparse := by
  constructor
  · decide
  · have hpow : FiniteField.pow 3 1 0 = 1 := FiniteField.pow_zero_eval 3 1
    simp only [OneSparseRecovery.feedAll, List.foldl, OneSparseRecovery.feed,
      OneSparseRecovery.init_with_order, OneSparseRecovery.query, hpow,
      FiniteField.add, FiniteField.neg, FiniteField.mul, FiniteField.mod_p_i64,
      FiniteField.mod_p]
    norm_num
    intro h
    rw [hpow] at h
    norm_num at h

/-! ## Edges and the `d1` index bijection (src/graph/edge.rs)

`Edge<u32, W>` is modelled for the coloring pipeline's instantiation
(`W = ()`): the two `u32` endpoints plus the `directed` flag.  `from_d1`
solves `0.5 x^2 - 0.5 x - d1 = 0` with the `roots` crate over `f64`, floors
the larger root `0.5 + √(0.25 + 2 d)` by the `as u64` cast, and then stores
the endpoints through `as u32` casts, which truncate modulo `2^32` — the
model keeps that truncation explicit.  The floored root itself is modelled
as the exact `⌊(1 + √(1 + 8 d)) / 2⌋` over the integers (`Nat.sqrt`).  For
every `d < 2^50` this is provably the value the `f64` computation produces:
`0.25 + 2 d` is then exactly representable (at most 53 significand bits),
the correctly rounded square root sits within `2^-28` of the true root
while the nearest truncation boundary `m - 0.5` is either hit exactly (when
`d = m (m - 1) / 2`, an exactly representable square) or at distance
greater than `2^-26`, and the final `+ 0.5` is exact — so the cast floors
the true root.  Beyond that range the `f64` computation may misround, and
from `d = 2^63 - 2^31` on the `u32` endpoint cast wraps. -/

structure Edge where
  v1 : Nat
  v2 : Nat
  directed : Bool
deriving DecidableEq, Repr

/-- Translation of `Edge::init` (undirected edge). -/
def Edge.init (v1 v2 : Nat) : Edge := ⟨v1, v2, false⟩

/-- Translation of `Edge::from_d1`: `max` is the floored larger root of
`0.5 x^2 - 0.5 x - d1 = 0` (see the section comment for the `f64`
modelling), `min = d1 - max * (max - 1) / 2`, and both endpoints are stored
through the source's `as u32` casts, i.e. reduced modulo `2^32`. -/
def Edge.from_d1 (d1 : Nat) : Edge :=
  let max := (1 + Nat.sqrt (1 + 8 * d1)) / 2
  let min := d1 - max * (max - 1) / 2
  ⟨min % 2 ^ 32, max % 2 ^ 32, false⟩

/-- Translation of `Edge::vertices_ord`: the canonical `(min, max)` pair. -/
def Edge.vertices_ord (e : Edge) : Nat × Nat :=
  if e.v1 ≤ e.v2 then (e.v1, e.v2) else (e.v2, e.v1)

/-- Translation of `Edge::formula`, including its `max = 0` special case. -/
def Edge.formula (min max : Nat) : Nat :=
  if max = 0 then 0 else max * (max - 1) / 2 + min

/-- Translation of `Edge::to_d1`. -/
def Edge.to_d1 (e : Edge) : Nat :=
  Edge.formula e.vertices_ord.1 e.vertices_ord.2

/-- Bracketing of the floored root: `v (v - 1) ≤ 2 d < v (v + 1)` where
`v = ⌊(1 + √(1 + 8 d)) / 2⌋`, stated without natural subtraction. -/
theorem from_d1_root_bracket (d : Nat) :
    ((1 + Nat.sqrt (1 + 8 * d)) / 2) * ((1 + Nat.sqrt (1 + 8 * d)) / 2) ≤
      2 * d + (1 + Nat.sqrt (1 + 8 * d)) / 2 ∧
    2 * d < ((1 + Nat.sqrt (1 + 8 * d)) / 2) * ((1 + Nat.sqrt (1 + 8 * d)) / 2) +
      (1 + Nat.sqrt (1 + 8 * d)) / 2 := by
  set s := Nat.sqrt (1 + 8 * d) with hs
  have h1 : s * s ≤ 1 + 8 * d := Nat.sqrt_le (1 + 8 * d)
  have h2 : 1 + 8 * d < (s + 1) * (s + 1) := Nat.lt_succ_sqrt (1 + 8 * d)
  rcases Nat.even_or_odd s with ⟨t, ht⟩ | ⟨t, ht⟩
  · have hv : (1 + s) / 2 = t := by omega
    have hss : s * s = 4 * (t * t) := by rw [ht]; ring
    have hs1 : (s + 1) * (s + 1) = 4 * (t * t) + 4 * t + 1 := by rw [ht]; ring
    rw [hv]
    omega
  · have hv : (1 + s) / 2 = t + 1 := by omega
    have hss : s * s = 4 * (t * t) + 4 * t + 1 := by rw [ht]; ring
    have hs1 : (s + 1) * (s + 1) = 4 * (t * t) + 8 * t + 4 := by rw [ht]; ring
    rw [hv]
    have hexp : (t + 1) * (t + 1) = t * t + 2 * t + 1 := by ring
    omega

/-- C2 counterexample: the claim fails for large `d` because the source
stores the computed endpoints through `as u32` casts.  At `d = 2^63` the
floored root is `2^32`, which truncates to endpoint `0`, and the roundtrip
returns `2^61 - 2^30 ≠ 2^63`. -/
theorem edge_d1_roundtrip_counterexample :
    (Edge.from_d1 (2 ^ 63)).v2 = 0 ∧
    (Edge.from_d1 (2 ^ 63)).to_d1 = 2305843008139952128 ∧
    (Edge.from_d1 (2 ^ 63)).to_d1 ≠ 2 ^ 63 := by
  have hs : Nat.sqrt (1 + 8 * 2 ^ 63) = 2 ^ 33 := by
    have h1 : (2 ^ 33 : Nat) ≤ Nat.sqrt (1 + 8 * 2 ^ 63) :=
      Nat.le_sqrt.mpr (by norm_num)
    have h2 : Nat.sqrt (1 + 8 * 2 ^ 63) < 2 ^ 33 + 1 :=
      Nat.sqrt_lt.mpr (by norm_num)
    omega
  have hfrom : Edge.from_d1 (2 ^ 63) = ⟨2 ^ 31, 0, false⟩ := by
    unfold Edge.from_d1
    rw [hs]
    norm_num
  rw [hfrom]
  unfold Edge.to_d1 Edge.vertices_ord Edge.formula
  norm_num

/-- C2 (corrected): for every `d < 2^50` — the region where the source's
`f64` root computation provably floors the true root and the computed
endpoints fit `u32` without truncation, covering every edge-index domain
the pipeline builds (the spec keeps them below `2^22`) —
`to_d1 (from_d1 d) = d`, and `from_d1 d` is the canonical ordered pair with
`v1 < v2`.  For larger `d` the `u32` endpoint cast wraps and the roundtrip
fails (`edge_d1_roundtrip_counterexample`). -/
theorem edge_d1_bijection (d : Nat) (hd : d < 2 ^ 50) :
    (Edge.from_d1 d).to_d1 = d ∧ (Edge.from_d1 d).v1 < (Edge.from_d1 d).v2 := by
  obtain ⟨hb1, hb2⟩ := from_d1_root_bracket d
  set v := (1 + Nat.sqrt (1 + 8 * d)) / 2 with hv
  have hvpos : 1 ≤ v := by
    have : 1 ≤ Nat.sqrt (1 + 8 * d) := by
      have := Nat.sqrt_le_sqrt (m := 1) (n := 1 + 8 * d) (by omega)
      simpa using this
    omega
  have hsmall : Nat.sqrt (1 + 8 * d) < 2 ^ 27 :=
    Nat.sqrt_lt.mpr (by omega)
  have hvlt : v < 2 ^ 32 := by
    rw [hv]
    omega
  have hmul : v * (v - 1) = v * v - v := by
    cases v with
    | zero => simp
    | succ w =>
      have h1 : (w + 1) * (w + 1 - 1) = (w + 1) * w := by simp
      have h2 : (w + 1) * (w + 1) = (w + 1) * w + (w + 1) := by ring
      omega
  have heven : v * (v - 1) % 2 = 0 := by
    rcases Nat.even_or_odd v with ⟨t, ht⟩ | ⟨t, ht⟩
    · have : v * (v - 1) = 2 * (t * (v - 1)) := by rw [ht]; ring
      omega
    · have hv1 : v - 1 = 2 * t := by omega
      have : v * (v - 1) = 2 * (v * t) := by rw [hv1]; ring
      omega
  have hlow : v * (v - 1) / 2 ≤ d := by omega
  have hu : d - v * (v - 1) / 2 < v := by omega
  have hfrom : Edge.from_d1 d = ⟨d - v * (v - 1) / 2, v, false⟩ := by
    unfold Edge.from_d1
    dsimp only
    rw [Nat.mod_eq_of_lt (show d - v * (v - 1) / 2 < 2 ^ 32 by omega),
      Nat.mod_eq_of_lt hvlt]
  constructor
  · rw [hfrom]
    unfold Edge.to_d1 Edge.vertices_ord
    simp only [if_pos (Nat.le_of_lt hu)]
    unfold Edge.formula
    rw [if_neg (by omega)]
    omega
  · rw [hfrom]
    exact hu

/-- Witness for `edge_d1_bijection` at `d = 14` (spec scenario E4:
`from_d1 14 = (4, 5)` and `to_d1 (4, 5) = 14`). -/
theorem edge_d1_bijection_witness :
    (Edge.from_d1 14).to_d1 = 14 ∧ (Edge.from_d1 14).v1 < (Edge.from_d1 14).v2 :=
  edge_d1_bijection 14 (by norm_num)

/-! ## s-sparse recovery (sparse_recovery/s_sparse.rs)

`SparseRecovery<F>` holds `t` rows, each a `HashMap` from hash bucket to a
lazily created one-sparse recovery, plus `t` hashers of the generic
`HashFunction` trait.  Rows are modelled as functions from bucket to
`Option OneSparseRecovery`, hashers as abstract functions `Nat → Nat`, and
the random base drawn for each lazily created cell (`init_with_order` calls
the RNG) as an explicit per-row function `bucket ↦ r`. -/

structure SparseRecovery where
  n : Nat
  s : Nat
  order : Nat
  structures : List (Nat → Option OneSparseRecovery)
  functions : List (Nat → Nat)
  rs : List (Nat → Nat)

/-- Translation of `SparseRecovery::init`.  The error parameter `δ` only
enters through the row count `t = ⌈log₂(s/δ)⌉` and the randomly generated
prime `order`, both of which are taken as explicit arguments (`functions`
and `rs` package the `t` random hashers and the per-cell random bases).
The sparsity parameter is stored exactly as passed: the source performs no
clamping of `s`. -/
def SparseRecovery.init (n s t order : Nat)
    (functions rs : List (Nat → Nat)) : SparseRecovery :=
  { n := n, s := s, order := order,
    structures := List.replicate t (fun _ => none),
    functions := functions, rs := rs }

/-- Row update used by `SparseRecovery::feed`: hash the coordinate, fetch or
lazily create the one-sparse cell in that bucket, and feed it the token. -/
def SparseRecovery.feedRow (n order : Nat) (token : Nat × Bool)
    (row : Nat → Option OneSparseRecovery) (hasher : Nat → Nat)
    (rsrc : Nat → Nat) : Nat → Option OneSparseRecovery :=
  fun b =>
    if b = hasher token.1 then
      some (((row b).getD (OneSparseRecovery.init_with_order n order (rsrc b))).feed token)
    else row b

/-- Pointwise traversal of the rows, pairing each with its hasher and its
per-cell randomness source. -/
def SparseRecovery.feedRows (n order : Nat) (token : Nat × Bool) :
    List (Nat → Option OneSparseRecovery) → List (Nat → Nat) →
      List (Nat → Nat) → List (Nat → Option OneSparseRecovery)
  | row :: rows, hasher :: hashers, rsrc :: rss =>
      SparseRecovery.feedRow n order token row hasher rsrc ::
        SparseRecovery.feedRows n order token rows hashers rss
  | rows, _, _ => rows

/-- Translation of `SparseRecovery::feed`. -/
def SparseRecovery.feed (st : SparseRecovery) (token : Nat × Bool) :
    SparseRecovery :=
  { st with structures :=
      SparseRecovery.feedRows st.n st.order token st.structures st.functions st.rs }

/-- Result dictionary of `SparseRecovery::query` (`HashMap<u64, i64>`):
a finite key set together with the stored weight for each key. -/
structure RecMap where
  keys : Finset Nat
  val : Nat → Int

/-- Empty result dictionary. -/
def RecMap.empty : RecMap := ⟨∅, fun _ => 0⟩

/-- Dictionary insertion (`HashMap::insert`, overwriting). -/
def RecMap.insert (m : RecMap) (i : Nat) (lam : Int) : RecMap :=
  ⟨Insert.insert i m.keys, Function.update m.val i lam⟩

/-- Translation of the sweep inside `SparseRecovery::query`: the one-sparse
cells are consumed in iteration order, their outputs given as a list.  A
`VeryLikely(λ, i)` conflicting with an existing entry, or growth of the
dictionary beyond `s` keys, aborts with `None`; `Zero` and `NotOneSparse`
are skipped; at the end the dictionary is returned only if some cell
produced a `VeryLikely` (`can_return`). -/
def SparseRecovery.sweep (s : Nat) :
    List OneSparseRecoveryOutput → RecMap → Bool → Option RecMap
  | [], acc, canReturn => if canReturn then some acc else none
  | .VeryLikely lam i :: rest, acc, _ =>
      if i ∈ acc.keys ∧ acc.val i ≠ lam then none
      else
        let acc2 := acc.insert i lam
        if s < acc2.keys.card then none
        else SparseRecovery.sweep s rest acc2 true
  | .Zero :: rest, acc, canReturn => SparseRecovery.sweep s rest acc canReturn
  | .NotOneSparse :: rest, acc, canReturn =>
      SparseRecovery.sweep s rest acc canReturn

/-- Translation of `SparseRecovery::query`, over the listed cell outputs.
The failure threshold is the stored sparsity parameter `st.s`. -/
def SparseRecovery.query (st : SparseRecovery)
    (outs : List OneSparseRecoveryOutput) : Option RecMap :=
  SparseRecovery.sweep st.s outs RecMap.empty false

/-! ## Claim C7: the sparsity parameter is stored unclamped -/

/-- C7 counterexample: `SparseRecovery::init` performs no `min(s, n)` clamp.
With universe `n = 1` and requested sparsity `s = 2`, the stored sparsity
parameter is `2`, not `min 2 1 = 1`. -/
theorem sparse_recovery_init_no_clamp_counterexample :
    (SparseRecovery.init 1 2 3 5 [] []).s = 2 ∧
    (SparseRecovery.init 1 2 3 5 [] []).s ≠ min 2 1 := by
  constructor
  · rfl
  · decide

/-- C7 (amended): construction stores the sparsity target exactly as passed
(no clamping to `min(s, n)` happens anywhere in `init`), and this stored
value is the more-than-`s`-distinct-keys failure threshold used by `query`. -/
theorem sparse_recovery_init_stores_s (n s t order : Nat)
    (functions rs : List (Nat → Nat)) (outs : List OneSparseRecoveryOutput) :
    (SparseRecovery.init n s t order functions rs).s = s ∧
    (SparseRecovery.init n s t order functions rs).query outs =
      SparseRecovery.sweep s outs RecMap.empty false := by
  exact ⟨rfl, rfl⟩

/-! ## Claim C4: when the s-sparse query fails -/

/-- Pairs `(index, weight)` of the `VeryLikely` outcomes among the cell
outputs, in sweep order; `Zero` and `NotOneSparse` outcomes are dropped. -/
def vlPairs (outs : List OneSparseRecoveryOutput) : List (Nat × Int) :=
  outs.filterMap fun o =>
    match o with
    | .VeryLikely lam i => some (i, lam)
    | _ => none

/-- All `VeryLikely` outcomes sharing an index report the same weight. -/
def Consistent (l : List (Nat × Int)) : Prop :=
  ∀ p ∈ l, ∀ q ∈ l, p.1 = q.1 → p.2 = q.2

/-- The accumulated dictionary agrees with every listed pair whose index it
already holds. -/
def Compat (acc : RecMap) (l : List (Nat × Int)) : Prop :=
  ∀ p ∈ l, p.1 ∈ acc.keys → acc.val p.1 = p.2

/-- Set of distinct indices among the listed pairs. -/
def idxSet (l : List (Nat × Int)) : Finset Nat := (l.map Prod.fst).toFinset

theorem idxSet_cons (i : Nat) (lam : Int) (l : List (Nat × Int)) :
    idxSet ((i, lam) :: l) = insert i (idxSet l) := by
  simp [idxSet]

/-- Full characterization of the sweep, by induction over the cell outputs,
with the accumulated dictionary and the `can_return` flag generalized. -/
theorem sweep_spec (s : Nat) (outs : List OneSparseRecoveryOutput) :
    ∀ (acc : RecMap) (cr : Bool), acc.keys.card ≤ s →
    ((SparseRecovery.sweep s outs acc cr = none ↔
        ¬(Consistent (vlPairs outs) ∧ Compat acc (vlPairs outs) ∧
          (acc.keys ∪ idxSet (vlPairs outs)).card ≤ s ∧
          (cr = true ∨ vlPairs outs ≠ []))) ∧
      (∀ m, SparseRecovery.sweep s outs acc cr = some m →
        m.keys = acc.keys ∪ idxSet (vlPairs outs) ∧
        (∀ p ∈ vlPairs outs, m.val p.1 = p.2) ∧
        (∀ w, w ∉ idxSet (vlPairs outs) → m.val w = acc.val w))) := by
  induction outs with
  | nil =>
    intro acc cr hcard
    constructor
    · cases cr with
      | false =>
        simp [SparseRecovery.sweep, vlPairs, Consistent, Compat, idxSet]
      | true =>
        simp [SparseRecovery.sweep, vlPairs, Consistent, Compat, idxSet, hcard]
    · intro m hm
      cases cr with
      | false => simp [SparseRecovery.sweep] at hm
      | true =>
        simp [SparseRecovery.sweep] at hm
        subst hm
        refine ⟨by simp [vlPairs, idxSet], by simp [vlPairs], by simp⟩
  | cons out rest ih =>
    intro acc cr hcard
    cases out with
    | Zero =>
      have hv : vlPairs (.Zero :: rest) = vlPairs rest := by simp [vlPairs]
      have hs : SparseRecovery.sweep s (.Zero :: rest) acc cr =
          SparseRecovery.sweep s rest acc cr := rfl
      rw [hs, hv]
      exact ih acc cr hcard
    | NotOneSparse =>
      have hv : vlPairs (.NotOneSparse :: rest) = vlPairs rest := by simp [vlPairs]
      have hs : SparseRecovery.sweep s (.NotOneSparse :: rest) acc cr =
          SparseRecovery.sweep s rest acc cr := rfl
      rw [hs, hv]
      exact ih acc cr hcard
    | VeryLikely lam i =>
      have hv : vlPairs (.VeryLikely lam i :: rest) = (i, lam) :: vlPairs rest := by
        simp [vlPairs]
      rw [hv, idxSet_cons]
      by_cases hconf : i ∈ acc.keys ∧ acc.val i ≠ lam
      · have hs : SparseRecovery.sweep s (.VeryLikely lam i :: rest) acc cr = none := by
          simp [SparseRecovery.sweep, if_pos hconf]
        rw [hs]
        constructor
        · simp only [true_iff]
          rintro ⟨-, hcompat, -, -⟩
          exact hconf.2 (hcompat (i, lam) (List.mem_cons_self _ _) hconf.1)
        · intro m hm
          exact absurd hm (by simp)
      · set acc2 := acc.insert i lam with hacc2
        have hkeys2 : acc2.keys = insert i acc.keys := rfl
        have hval2i : acc2.val i = lam := by
          simp [hacc2, RecMap.insert, Function.update]
        have hval2ne : ∀ w, w ≠ i → acc2.val w = acc.val w := by
          intro w hw
          simp [hacc2, RecMap.insert, Function.update, hw]
        have hK : acc2.keys ∪ idxSet (vlPairs rest) =
            acc.keys ∪ insert i (idxSet (vlPairs rest)) := by
          rw [hkeys2]
          ext w
          simp
        by_cases hover : s < acc2.keys.card
        · have hs : SparseRecovery.sweep s (.VeryLikely lam i :: rest) acc cr = none := by
            simp [SparseRecovery.sweep, if_neg hconf, hover]
          rw [hs]
          constructor
          · simp only [true_iff]
            rintro ⟨-, -, hle, -⟩
            have hsub : acc2.keys ⊆ acc.keys ∪ insert i (idxSet (vlPairs rest)) := by
              rw [hkeys2]
              intro w hw
              simp at hw ⊢
              tauto
            have := Finset.card_le_card hsub
            omega
          · intro m hm
            exact absurd hm (by simp)
        · have hs : SparseRecovery.sweep s (.VeryLikely lam i :: rest) acc cr =
              SparseRecovery.sweep s rest acc2 true := by
            simp [SparseRecovery.sweep, if_neg hconf, hover]
          rw [hs]
          obtain ⟨ihnone, ihsome⟩ := ih acc2 true (by omega)
          have hbig : (Consistent ((i, lam) :: vlPairs rest) ∧
              Compat acc ((i, lam) :: vlPairs rest) ∧
              (acc.keys ∪ insert i (idxSet (vlPairs rest))).card ≤ s ∧
              (cr = true ∨ (i, lam) :: vlPairs rest ≠ [])) ↔
              (Consistent (vlPairs rest) ∧ Compat acc2 (vlPairs rest) ∧
              (acc2.keys ∪ idxSet (vlPairs rest)).card ≤ s ∧
              (true = true ∨ vlPairs rest ≠ [])) := by
            constructor
            · rintro ⟨hcons, hcompat, hle, -⟩
              refine ⟨?_, ?_, ?_, Or.inl rfl⟩
              · intro p hp q hq hpq
                exact hcons p (List.mem_cons_of_mem _ hp) q (List.mem_cons_of_mem _ hq) hpq
              · intro p hp hpk
                rw [hkeys2] at hpk
                rcases Finset.mem_insert.mp hpk with hpi | hpk2
                · rw [hpi, hval2i]
                  exact (hcons (i, lam) (List.mem_cons_self _ _) p
                    (List.mem_cons_of_mem _ hp) hpi.symm).symm ▸
                    (hcons p (List.mem_cons_of_mem _ hp) (i, lam)
                      (List.mem_cons_self _ _) hpi).symm
                · by_cases hpi : p.1 = i
                  · rw [hpi, hval2i]
                    exact (hcons p (List.mem_cons_of_mem _ hp) (i, lam)
                      (List.mem_cons_self _ _) hpi).symm
                  · rw [hval2ne _ hpi]
                    exact hcompat p (List.mem_cons_of_mem _ hp) hpk2
              · rw [hK]
                exact hle
            · rintro ⟨hcons, hcompat, hle, -⟩
              have hhead : ∀ p ∈ vlPairs rest, p.1 = i → p.2 = lam := by
                intro p hp hpi
                have := hcompat p hp (by rw [hkeys2, hpi]; exact Finset.mem_insert_self _ _)
                rw [hpi, hval2i] at this
                exact this.symm
              refine ⟨?_, ?_, ?_, Or.inr (by simp)⟩
              · intro p hp q hq hpq
                rcases List.mem_cons.mp hp with hp1 | hp2 <;>
                  rcases List.mem_cons.mp hq with hq1 | hq2
                · rw [hp1, hq1]
                · rw [hp1]
                  rw [hp1] at hpq
                  exact (hhead q hq2 hpq.symm).symm
                · rw [hq1]
                  rw [hq1] at hpq
                  exact hhead p hp2 hpq
                · exact hcons p hp2 q hq2 hpq
              · intro p hp hpk
                rcases List.mem_cons.mp hp with hp1 | hp2
                · rw [hp1]
                  dsimp only
                  rw [hp1] at hpk
                  dsimp only at hpk
                  push_neg at hconf
                  exact hconf hpk
                · by_cases hpi : p.1 = i
                  · have hlam : p.2 = lam := hhead p hp2 hpi
                    push_neg at hconf
                    rw [hpi, hlam]
                    exact hconf (hpi ▸ hpk)
                  · have := hcompat p hp2 (by rw [hkeys2]; exact Finset.mem_insert_of_mem hpk)
                    rwa [hval2ne _ hpi] at this
              · rw [← hK]
                exact hle
          constructor
          · rw [ihnone, hbig]
          · intro m hm
            obtain ⟨hmk, hmv, hmu⟩ := ihsome m hm
            have hsmall : Consistent (vlPairs rest) ∧ Compat acc2 (vlPairs rest) ∧
                (acc2.keys ∪ idxSet (vlPairs rest)).card ≤ s ∧
                (true = true ∨ vlPairs rest ≠ []) := by
              by_contra hcon
              have : SparseRecovery.sweep s rest acc2 true = none := ihnone.mpr hcon
              rw [this] at hm
              exact absurd hm (by simp)
            refine ⟨by rw [hmk, hK], ?_, ?_⟩
            · intro p hp
              rcases List.mem_cons.mp hp with hp1 | hp2
              · rw [hp1]
                dsimp only
                by_cases hidx : i ∈ idxSet (vlPairs rest)
                · have hidx2 : i ∈ (vlPairs rest).map Prod.fst := by
                    simpa [idxSet] using hidx
                  obtain ⟨q, hq, hqi⟩ := List.mem_map.mp hidx2
                  have h1 : m.val q.1 = q.2 := hmv q hq
                  have h2 : acc2.val q.1 = q.2 :=
                    hsmall.2.1 q hq (by rw [hkeys2, hqi]; exact Finset.mem_insert_self _ _)
                  rw [hqi] at h1 h2
                  rw [h1, ← h2, hval2i]
                · rw [hmu i hidx, hval2i]
              · exact hmv p hp2
            · intro w hw
              rw [Finset.mem_insert] at hw
              push_neg at hw
              rw [hmu w hw.2, hval2ne w hw.1]

/-- C4 (confirmed): the s-sparse `query` returns `None` iff a `VeryLikely`
cell conflicts with an already-recorded weight for the same index, or the
result dictionary exceeds `s` distinct keys, or no cell at all produced a
`VeryLikely`; otherwise it returns the accumulated dictionary of recovered
index/weight pairs.  `Zero` and `NotOneSparse` cell outcomes never affect
the result (the characterization depends only on the `VeryLikely` pairs). -/
theorem sparse_recovery_query_none_iff (st : SparseRecovery)
    (outs : List OneSparseRecoveryOutput) :
    (st.query outs = none ↔
      (vlPairs outs = [] ∨ ¬ Consistent (vlPairs outs) ∨
        st.s < (idxSet (vlPairs outs)).card)) ∧
    (∀ m, st.query outs = some m →
      m.keys = idxSet (vlPairs outs) ∧ ∀ p ∈ vlPairs outs, m.val p.1 = p.2) := by
  obtain ⟨hnone, hsome⟩ := sweep_spec st.s outs RecMap.empty false (by simp [RecMap.empty])
  have hcompat : Compat RecMap.empty (vlPairs outs) := by
    intro p hp hpk
    simp [RecMap.empty] at hpk
  have hunion : RecMap.empty.keys ∪ idxSet (vlPairs outs) = idxSet (vlPairs outs) := by
    simp [RecMap.empty]
  constructor
  · rw [SparseRecovery.query, hnone, hunion]
    constructor
    · intro h
      by_cases h1 : vlPairs outs = []
      · exact Or.inl h1
      · by_cases h2 : Consistent (vlPairs outs)
        · refine Or.inr (Or.inr ?_)
          by_contra h3
          exact h ⟨h2, hcompat, by omega, Or.inr h1⟩
        · exact Or.inr (Or.inl h2)
    · rintro (h | h | h) ⟨hc, -, hle, hcr⟩
      · rcases hcr with hcr | hcr
        · simp at hcr
        · exact hcr h
      · exact h hc
      · omega
  · intro m hm
    obtain ⟨hk, hv, -⟩ := hsome m hm
    exact ⟨by rw [hk, hunion], hv⟩

/-- Witness for `sparse_recovery_query_none_iff`: a single `VeryLikely(3, 1)`
cell output under sparsity `s = 2` yields the dictionary with key set `{1}`
mapping `1` to `3`. -/
theorem sparse_recovery_query_none_iff_witness :
    ∃ m, (SparseRecovery.init 5 2 0 7 [] []).query
        [OneSparseRecoveryOutput.VeryLikely 3 1] = some m ∧
      m.keys = {1} ∧ m.val 1 = 3 := by
  have hq : (SparseRecovery.init 5 2 0 7 [] []).query
      [OneSparseRecoveryOutput.VeryLikely 3 1] = some (RecMap.empty.insert 1 3) := by
    simp [SparseRecovery.query, SparseRecovery.sweep, SparseRecovery.init,
      RecMap.empty, RecMap.insert]
  have h := (sparse_recovery_query_none_iff (SparseRecovery.init 5 2 0 7 [] [])
    [OneSparseRecoveryOutput.VeryLikely 3 1]).2 (RecMap.empty.insert 1 3) hq
  refine ⟨RecMap.empty.insert 1 3, hq, ?_, ?_⟩
  · rw [h.1]
    simp [idxSet, vlPairs]
  · have := h.2 (1, 3) (by simp [vlPairs])
    simpa using this

/-! ## Field hasher and L0 sampling levels
(src/utils/hash_function.rs, src/graph/streaming/sampling/l0_sampling.rs)

`FieldHasher::init(n, l)` draws `a, b` uniformly from `[0, n)` and builds a
mask by setting bits `0 .. (l as f32).log2() as u64`, i.e. `⌊log₂ l⌋` bits
(`0` bits for `l ≤ 1`, since the cast of `log₂ 0 = -∞` and `log₂ 1 = 0`
is `0`).  `compute(x) = ((a * x + b) % n) & mask`.  The L0 sampler pairs
the level-`l` one-sparse recovery with `FieldHasher::init(n, l)` and feeds
a token to that recovery iff the hash of its coordinate is zero. -/

/-- Floor of the base-2 logarithm, as the `u64` cast of `f32::log2` computes
it for the small arguments in use: `0` for `v ≤ 1`, `⌊log₂ v⌋` otherwise.
Structural fuel recursion so that values compute by `decide`. -/
def log2FloorGo : Nat → Nat → Nat
  | 0, _ => 0
  | fuel + 1, v => if v ≤ 1 then 0 else log2FloorGo fuel (v / 2) + 1

/-- Floor log base 2 with sufficient fuel. -/
def log2Floor (v : Nat) : Nat := log2FloorGo v v

/-- Mask computed by `FieldHasher::init` for range parameter `l`: bits
`0 .. ⌊log₂ l⌋` set, i.e. `2 ^ ⌊log₂ l⌋ - 1`. -/
def FieldHasher.maskFor (l : Nat) : Nat := 2 ^ log2Floor l - 1

/-- The hasher of src/utils/hash_function.rs: coefficients `a`, `b`, the
modulus `n`, and the bit mask. -/
structure FieldHasher where
  a : Nat
  b : Nat
  n : Nat
  mask : Nat
deriving DecidableEq, Repr

/-- Translation of `FieldHasher::init` with the random draws `a, b ∈ [0, n)`
explicit. -/
def FieldHasher.init (n l a b : Nat) : FieldHasher :=
  ⟨a, b, n, FieldHasher.maskFor l⟩

/-- Translation of `FieldHasher::compute`: `((a * x + b) % n) & mask`. -/
def FieldHasher.compute (h : FieldHasher) (x : Nat) : Nat :=
  ((h.a * x + h.b) % h.n) &&& h.mask

/-- Translation of `HashFunction::is_zero`. -/
def FieldHasher.is_zero (h : FieldHasher) (x : Nat) : Bool :=
  h.compute x == 0

/-- Per-level processing step of `l_zero_sampling`: the token is fed to the
level's one-sparse recovery iff its coordinate hashes to zero. -/
def l0LevelFeed (recovery : OneSparseRecovery) (hasher : FieldHasher)
    (token : Nat × Bool) : OneSparseRecovery :=
  if hasher.is_zero token.1 then recovery.feed token else recovery

theorem log2FloorGo_le_fuel (fuel v : Nat) : log2FloorGo fuel v ≤ fuel := by
  induction fuel generalizing v with
  | zero => simp [log2FloorGo]
  | succ f ih =>
    rw [log2FloorGo]
    split
    · omega
    · have := ih (v / 2)
      omega

theorem log2Floor_le (v : Nat) : log2Floor v ≤ v := log2FloorGo_le_fuel v v

/-- C8 counterexample: the claim "the hasher paired with level `l` has range
exactly `2^l`" fails.  At level `l = 3` the mask built by
`FieldHasher::init(n, 3)` is `2^⌊log₂ 3⌋ - 1 = 1`, not `2^3 - 1 = 7`, and no
input ever hashes to the value `5 ∈ [0, 2^3)`. -/
theorem l0_hasher_range_counterexample :
    FieldHasher.maskFor 3 = 1 ∧ FieldHasher.maskFor 3 ≠ 2 ^ 3 - 1 ∧
    ¬ ∃ n a b x, (FieldHasher.init n 3 a b).compute x = 5 := by
  refine ⟨by decide, by decide, ?_⟩
  rintro ⟨n, a, b, x, hx⟩
  have hle : (FieldHasher.init n 3 a b).compute x ≤ 1 := by
    have h1 : ((a * x + b) % n) &&& FieldHasher.maskFor 3 ≤ FieldHasher.maskFor 3 :=
      Nat.and_le_right
    simpa [FieldHasher.compute, FieldHasher.init] using h1
  omega

/-- C8 (amended): the hasher paired with level `l` has range
`2^⌊log₂ l⌋` — every hash value lies below `2^⌊log₂ l⌋ ≤ 2^l` (so the claim's
containment in `[0, 2^l)` does hold, but with slack) — and a coordinate is
fed to the level-`l` one-sparse recovery iff its hash value is `0`. -/
theorem l0_level_hasher_spec (n l a b x : Nat) (recovery : OneSparseRecovery)
    (c : Bool) :
    (FieldHasher.init n l a b).compute x < 2 ^ log2Floor l ∧
    (FieldHasher.init n l a b).compute x < 2 ^ l ∧
    (l0LevelFeed recovery (FieldHasher.init n l a b) (x, c) =
      if (FieldHasher.init n l a b).compute x = 0 then recovery.feed (x, c)
      else recovery) := by
  have hmask : ((a * x + b) % n) &&& FieldHasher.maskFor l ≤ FieldHasher.maskFor l :=
    Nat.and_le_right
  have hcomp : (FieldHasher.init n l a b).compute x =
      ((a * x + b) % n) &&& FieldHasher.maskFor l := rfl
  have hpow : (0 : Nat) < 2 ^ log2Floor l := Nat.pos_pow_of_pos _ (by omega)
  have h1 : (FieldHasher.init n l a b).compute x < 2 ^ log2Floor l := by
    rw [hcomp]
    unfold FieldHasher.maskFor at hmask ⊢
    omega
  have h2 : (2 : Nat) ^ log2Floor l ≤ 2 ^ l :=
    Nat.pow_le_pow_right (by omega) (log2Floor_le l)
  refine ⟨h1, by omega, ?_⟩
  unfold l0LevelFeed FieldHasher.is_zero
  by_cases hz : (FieldHasher.init n l a b).compute x = 0
  · rw [if_pos hz]
    simp [hz]
  · rw [if_neg hz]
    simp [hz]

/-! ## GF(2^n) arithmetic (src/utils/finite_field.rs, `FField`)

`bits(val) = (val as f64).log2().ceil() as u64`, i.e. `⌈log₂ val⌉` with
`bits 0 = bits 1 = 0` (the source's own test pins `bits 6 = 3`).  Note this
is **not** the number of significant bits: `bits (2^k) = k`.  `reduce` XORs
in the shifted primitive polynomial while `bits value > bits order`; the
while loop is modelled with explicit fuel `2 * value + 4`, which dominates
the loop's iteration count (every iteration either clears the top bit,
halving the accumulator, or is immediately followed by one that does). -/

/-- Ceiling of the base-2 logarithm by structural fuel recursion:
`bitsGo fuel v` computes `⌈log₂ v⌉` for `v ≥ 2` when `fuel ≥ v`. -/
def bitsGo : Nat → Nat → Nat
  | 0, _ => 0
  | fuel + 1, v => if v ≤ 1 then 0 else bitsGo fuel ((v + 1) / 2) + 1

/-- Translation of the `bits` helper of finite_field.rs. -/
def bits (val : Nat) : Nat := bitsGo val val

/-- The `GF(2^n)` field of finite_field.rs: the order `2^n` and the tabulated
primitive polynomial of degree `n`. -/
structure FField where
  order : Nat
  irreducible : Nat
deriving DecidableEq, Repr

/-- Reduction loop of `FField::reduce`, with explicit fuel. -/
def reduceGo (irreducible orderBits : Nat) : Nat → Nat → Nat
  | 0, value => value
  | fuel + 1, value =>
      if orderBits < bits value then
        reduceGo irreducible orderBits fuel
          (value ^^^ (irreducible <<< (bits value - bits irreducible)))
      else value

/-- Translation of `FField::reduce`. -/
def FField.reduce (F : FField) (value : Nat) : Nat :=
  reduceGo F.irreducible (bits F.order) (2 * value + 4) value

/-- Carry-less multiplication: for each set bit `loc` of `rhs` (a `u64`, so
`loc < 64`), XOR `lhs <<< loc` into the accumulator — the bit loop of
`FField::mult`. -/
def clmul (lhs rhs : Nat) : Nat :=
  (List.range 64).foldl
    (fun acc loc => if (rhs >>> loc) &&& 1 = 1 then acc ^^^ (lhs <<< loc) else acc) 0

/-- Translation of `FField::add`: XOR. -/
def FField.add (F : FField) (lhs rhs : Nat) : Nat := lhs ^^^ rhs

/-- Translation of `FField::mult`: carry-less multiply, then reduce. -/
def FField.mult (F : FField) (lhs rhs : Nat) : Nat := F.reduce (clmul lhs rhs)

/-- C6 (code bug): `GF(2^n)` is *not* closed under `mult`.  In `GF(4)`
(order `4`, primitive polynomial `x^2 + x + 1 = 7`), `mult(2, 2)` carry-less
multiplies to `4 = 2^2`; since `bits 4 = ⌈log₂ 4⌉ = 2` equals `bits 4` of the
order, the reduction loop never runs and the product `4` — with the high bit
set — is returned unreduced.  The mathematically correct product is
`x² mod (x² + x + 1) = x + 1 = 3 < 4`. -/
theorem ffield_mult_escapes_field :
    FField.mult ⟨4, 7⟩ 2 2 = 4 ∧ ¬ FField.mult ⟨4, 7⟩ 2 2 < 4 := by
  constructor
  · decide
  · decide

/-! ## BCG stream colorer (src/graph/streaming/coloring.rs)

`StreamColoring` holds the palette size, the vertex → `(batch_id,
palette_index)` color map (`HashMap<u32, ColorTuple>`, populated for every
vertex of `[0, n)` at `init`, hence modelled as a total function), and the
s-sparse recovery over the edge-index domain. -/

structure StreamColoring where
  palette_size : Nat
  colors : Nat → Nat × Nat
  sparse_recovery : SparseRecovery

/-- Translation of `StreamColoring::feed`: look up the endpoints' current
color tuples; if they agree, forward `(to_d1 edge, c)` to the s-sparse
recovery, otherwise do nothing. -/
def StreamColoring.feed (st : StreamColoring) (edge : Edge) (c : Bool) :
    StreamColoring :=
  let color1 := st.colors edge.v1
  let color2 := st.colors edge.v2
  if color1 = color2 then
    { st with sparse_recovery := st.sparse_recovery.feed (edge.to_d1, c) }
  else st

/-- C9 (confirmed): `feed` is a frame-preserving filter.  If the endpoints'
color tuples differ the whole sketch state is unchanged; if they agree,
exactly `(to_d1 edge, ins)` is forwarded to the s-sparse recovery; and in
either case the colors map and the palette size are untouched. -/
theorem stream_coloring_feed_frame (st : StreamColoring) (edge : Edge)
    (c : Bool) :
    (st.colors edge.v1 ≠ st.colors edge.v2 → st.feed edge c = st) ∧
    (st.colors edge.v1 = st.colors edge.v2 →
      st.feed edge c =
        { st with sparse_recovery := st.sparse_recovery.feed (edge.to_d1, c) }) ∧
    (st.feed edge c).colors = st.colors ∧
    (st.feed edge c).palette_size = st.palette_size := by
  refine ⟨?_, ?_, ?_, ?_⟩
  · intro hne
    unfold StreamColoring.feed
    simp [hne]
  · intro heq
    unfold StreamColoring.feed
    simp [heq]
  · unfold StreamColoring.feed
    dsimp only
    split <;> rfl
  · unfold StreamColoring.feed
    dsimp only
    split <;> rfl

/-- Witness for `stream_coloring_feed_frame`: a concrete sketch whose colors
separate the endpoints `0` and `1`, so feeding the edge `{0, 1}` leaves the
state unchanged; and the same sketch with constant colors, where feeding
forwards the edge index. -/
theorem stream_coloring_feed_frame_witness :
    (StreamColoring.feed
        ⟨2, fun v => (v, 0), SparseRecovery.init 10 3 0 7 [] []⟩
        (Edge.init 0 1) true =
      ⟨2, fun v => (v, 0), SparseRecovery.init 10 3 0 7 [] []⟩) ∧
    (StreamColoring.feed
        ⟨2, fun _ => (0, 0), SparseRecovery.init 10 3 0 7 [] []⟩
        (Edge.init 0 1) true =
      ⟨2, fun _ => (0, 0),
        (SparseRecovery.init 10 3 0 7 [] []).feed ((Edge.init 0 1).to_d1, true)⟩) := by
  constructor
  · exact (stream_coloring_feed_frame
      ⟨2, fun v => (v, 0), SparseRecovery.init 10 3 0 7 [] []⟩
      (Edge.init 0 1) true).1 (by decide)
  · exact (stream_coloring_feed_frame
      ⟨2, fun _ => (0, 0), SparseRecovery.init 10 3 0 7 [] []⟩
      (Edge.init 0 1) true).2.1 rfl

/-! ## Graph container (src/graph.rs)

`Graph<T, W>` is an adjacency map `HashMap<T, HashSet<EdgeDestination>>`,
used by the coloring pipeline at `T = u32`, `W = ()`.  It is modelled as the
key set `present` plus a total neighbor-set function `adj` (a `HashMap`
lookup of an absent key yields no entry; the representation invariant kept
by the operations is `adj v = ∅` for `v ∉ present`, so `and_modify` on a
possibly-absent key is the unconditional pointwise update below). -/

structure Graph where
  present : Finset Nat
  adj : Nat → Finset Nat

/-- Translation of `Graph::vertices` (the key set). -/
def Graph.vertices (G : Graph) : Finset Nat := G.present

/-- Translation of `Graph::is_empty` (`adjacency_list.is_empty()`). -/
def Graph.is_empty (G : Graph) : Prop := G.present = ∅

instance (G : Graph) : Decidable G.is_empty := by
  unfold Graph.is_empty
  infer_instance

/-- Translation of `Graph::add_edge`: ensure the `v1` entry exists and add
`v2` to it; if the edge is undirected, symmetrically add the reversed
destination. -/
def Graph.add_edge (G : Graph) (e : Edge) : Graph :=
  let G1 : Graph :=
    ⟨insert e.v1 G.present,
     fun w => if w = e.v1 then insert e.v2 (G.adj e.v1) else G.adj w⟩
  if e.directed then G1
  else
    ⟨insert e.v2 G1.present,
     fun w => if w = e.v2 then insert e.v1 (G1.adj e.v2) else G1.adj w⟩

/-- First retain of `Graph::remove_edge`: drop destination `v` from `u`'s
neighbor set. -/
def Graph.removeEdgeAdj1 (G : Graph) (u v : Nat) : Nat → Finset Nat :=
  fun w => if w = u then (G.adj u).erase v else G.adj w

/-- Second retain of `Graph::remove_edge`: drop destination `u` from `v`'s
neighbor set (after the first retain). -/
def Graph.removeEdgeAdj2 (G : Graph) (u v : Nat) : Nat → Finset Nat :=
  fun w =>
    if w = v then (G.removeEdgeAdj1 u v v).erase u else G.removeEdgeAdj1 u v w

/-- Translation of `Graph::remove_edge`: retain both directions, then drop
the key `u` if its neighbor set became empty, then likewise `v` (checked
against the map after the possible removal of `u`, exactly as the source
does). -/
def Graph.remove_edge (G : Graph) (e : Edge) : Graph :=
  let adj2 := G.removeEdgeAdj2 e.v1 e.v2
  let present1 :=
    if e.v1 ∈ G.present ∧ adj2 e.v1 = ∅ then G.present.erase e.v1 else G.present
  let present2 :=
    if e.v2 ∈ present1 ∧ adj2 e.v2 = ∅ then present1.erase e.v2 else present1
  ⟨present2, adj2⟩

/-- Translation of `Graph::remove_vertex`: drop the key, and retain away the
vertex from each of its neighbors' sets. -/
def Graph.remove_vertex (G : Graph) (v : Nat) : Graph :=
  ⟨G.present.erase v,
   fun w =>
     if w = v then ∅
     else if w ∈ G.adj v then (G.adj w).erase v else G.adj w⟩


/-- Both retained neighbor sets are empty when the edge `{u, v}` was the only
adjacency of its endpoints. -/
theorem removeEdgeAdj2_empty (G : Graph) (u v : Nat)
    (hadju : G.adj u ⊆ {v}) (hadjv : G.adj v ⊆ {u}) :
    G.removeEdgeAdj2 u v u = ∅ ∧ G.removeEdgeAdj2 u v v = ∅ := by
  unfold Graph.removeEdgeAdj2 Graph.removeEdgeAdj1
  by_cases huv : u = v
  · subst huv
    simp only [if_pos rfl]
    constructor <;>
    · apply Finset.eq_empty_iff_forall_not_mem.mpr
      intro w hw
      have h1 := Finset.mem_of_mem_erase hw
      have h2 := hadju (Finset.mem_of_mem_erase h1)
      rw [Finset.mem_singleton] at h2
      exact (Finset.mem_erase.mp hw).1 h2
  · constructor
    · rw [if_neg huv, if_pos rfl]
      apply Finset.eq_empty_iff_forall_not_mem.mpr
      intro w hw
      have h2 := hadju (Finset.mem_of_mem_erase hw)
      rw [Finset.mem_singleton] at h2
      exact (Finset.mem_erase.mp hw).1 h2
    · rw [if_pos rfl, if_neg (fun h => huv h.symm)]
      apply Finset.eq_empty_iff_forall_not_mem.mpr
      intro w hw
      have h2 := hadjv (Finset.mem_of_mem_erase hw)
      rw [Finset.mem_singleton] at h2
      exact (Finset.mem_erase.mp hw).1 h2

/-- C10 (confirmed): after `remove_edge {u, v}`, an endpoint that was present
remains a vertex iff its neighbor set is still nonempty (endpoints whose set
became empty are pruned from the key set); removing the last edge of the
graph makes `is_empty` true; and undirected `add_edge` inserts endpoints
that were not previously present. -/
theorem graph_edge_endpoint_lifecycle (G : Graph) (e : Edge) :
    (e.v1 ∈ G.present →
      (e.v1 ∈ (G.remove_edge e).present ↔ (G.remove_edge e).adj e.v1 ≠ ∅)) ∧
    (e.v2 ∈ G.present →
      (e.v2 ∈ (G.remove_edge e).present ↔ (G.remove_edge e).adj e.v2 ≠ ∅)) ∧
    (G.present ⊆ {e.v1, e.v2} → G.adj e.v1 ⊆ {e.v2} → G.adj e.v2 ⊆ {e.v1} →
      (G.remove_edge e).is_empty) ∧
    (e.directed = false →
      e.v1 ∈ (G.add_edge e).present ∧ e.v2 ∈ (G.add_edge e).present) := by
  have hadj : (G.remove_edge e).adj = G.removeEdgeAdj2 e.v1 e.v2 := rfl
  have hpres : (G.remove_edge e).present =
      (if e.v2 ∈ (if e.v1 ∈ G.present ∧ G.removeEdgeAdj2 e.v1 e.v2 e.v1 = ∅ then
            G.present.erase e.v1 else G.present) ∧
          G.removeEdgeAdj2 e.v1 e.v2 e.v2 = ∅ then
        (if e.v1 ∈ G.present ∧ G.removeEdgeAdj2 e.v1 e.v2 e.v1 = ∅ then
            G.present.erase e.v1 else G.present).erase e.v2
      else
        (if e.v1 ∈ G.present ∧ G.removeEdgeAdj2 e.v1 e.v2 e.v1 = ∅ then
            G.present.erase e.v1 else G.present)) := rfl
  set A := G.removeEdgeAdj2 e.v1 e.v2 with hA
  set P1 := if e.v1 ∈ G.present ∧ A e.v1 = ∅ then G.present.erase e.v1
    else G.present with hP1
  have hp1sub : P1 ⊆ G.present := by
    rw [hP1]
    split
    · exact Finset.erase_subset _ _
    · exact Finset.Subset.refl _
  have hpres2 : (G.remove_edge e).present =
      if e.v2 ∈ P1 ∧ A e.v2 = ∅ then P1.erase e.v2 else P1 := hpres
  have hp2sub : (G.remove_edge e).present ⊆ P1 := by
    rw [hpres2]
    split
    · exact Finset.erase_subset _ _
    · exact Finset.Subset.refl _
  refine ⟨?_, ?_, ?_, ?_⟩
  · intro hup
    rw [hadj]
    by_cases hAu : A e.v1 = ∅
    · have h1 : e.v1 ∉ P1 := by
        rw [hP1, if_pos ⟨hup, hAu⟩]
        exact Finset.not_mem_erase _ _
      constructor
      · intro hmem
        exact absurd (hp2sub hmem) h1
      · intro hne
        exact absurd hAu hne
    · have h1 : e.v1 ∈ P1 := by
        rw [hP1, if_neg (by tauto)]
        exact hup
      refine ⟨fun _ => hAu, fun _ => ?_⟩
      rw [hpres2]
      split
      · next hcond =>
        refine Finset.mem_erase.mpr ⟨?_, h1⟩
        intro huv
        rw [huv] at hAu
        exact hAu hcond.2
      · exact h1
  · intro hvp
    rw [hadj]
    by_cases hAv : A e.v2 = ∅
    · constructor
      · intro hmem
        exfalso
        rw [hpres2] at hmem
        split at hmem
        · exact (Finset.not_mem_erase _ _) hmem
        · next hcond =>
          push_neg at hcond
          exact hcond hmem hAv
      · intro hne
        exact absurd hAv hne
    · have hv1 : e.v2 ∈ P1 := by
        rw [hP1]
        split
        · next hcond =>
          refine Finset.mem_erase.mpr ⟨?_, hvp⟩
          intro hvu
          rw [← hvu] at hcond
          exact hAv hcond.2
        · exact hvp
      refine ⟨fun _ => hAv, fun _ => ?_⟩
      rw [hpres2, if_neg (by tauto)]
      exact hv1
  · intro hsub hadju hadjv
    obtain ⟨hAu, hAv⟩ := removeEdgeAdj2_empty G e.v1 e.v2 hadju hadjv
    rw [← hA] at hAu hAv
    show (G.remove_edge e).present = ∅
    apply Finset.eq_empty_iff_forall_not_mem.mpr
    intro w hw
    have hup1 : e.v1 ∉ P1 := by
      rw [hP1]
      by_cases hup : e.v1 ∈ G.present
      · rw [if_pos ⟨hup, hAu⟩]
        exact Finset.not_mem_erase _ _
      · rw [if_neg (by tauto)]
        exact hup
    have hvp2 : e.v2 ∉ (G.remove_edge e).present := by
      rw [hpres2]
      by_cases hvp1 : e.v2 ∈ P1
      · rw [if_pos ⟨hvp1, hAv⟩]
        exact Finset.not_mem_erase _ _
      · rw [if_neg (by tauto)]
        exact hvp1
    have hwP : w ∈ G.present := hp1sub (hp2sub hw)
    rcases Finset.mem_insert.mp (hsub hwP) with hw1 | hw2
    · rw [hw1] at hw
      exact hup1 (hp2sub hw)
    · rw [Finset.mem_singleton] at hw2
      rw [hw2] at hw
      exact hvp2 hw
  · intro hdir
    unfold Graph.add_edge
    rw [hdir]
    simp

/-- Witness for `graph_edge_endpoint_lifecycle`: the one-edge graph on
`{0, 1}`; removing its single edge empties it, and `add_edge` inserts the
missing endpoints into the empty graph. -/
theorem graph_edge_endpoint_lifecycle_witness :
    (Graph.remove_edge
      ⟨{0, 1}, fun w => if w = 0 then {1} else if w = 1 then {0} else ∅⟩
      (Edge.init 0 1)).is_empty ∧
    (0 ∈ (Graph.add_edge ⟨∅, fun _ => ∅⟩ (Edge.init 0 1)).present ∧
     1 ∈ (Graph.add_edge ⟨∅, fun _ => ∅⟩ (Edge.init 0 1)).present) := by
  constructor
  · exact (graph_edge_endpoint_lifecycle
      ⟨{0, 1}, fun w => if w = 0 then {1} else if w = 1 then {0} else ∅⟩
      (Edge.init 0 1)).2.2.1 (by decide) (by decide) (by decide)
  · exact (graph_edge_endpoint_lifecycle ⟨∅, fun _ => ∅⟩
      (Edge.init 0 1)).2.2.2 rfl

/-! ## Static degeneracy colorer
(src/graph/static_a/coloring.rs, `Colorer::color_degeneracy`, with the
min-degree retrieval of `GraphWithRecaller`)

`GraphWithRecaller` keeps a min-priority heap whose priority equals the
current neighbor-set size (`new` initializes it from the adjacency sizes and
`remove_vertex` decrements each neighbor's priority), so `min_degree` peeks
a vertex of minimum current degree; ties are broken arbitrarily but
deterministically by the heap, modelled as the least vertex id among those
of minimum degree.  `color_degeneracy` clones the graph, repeatedly pops a
minimum-degree vertex into an ordering, reverses the ordering, and greedily
assigns each vertex the smallest color unused by its already-colored
neighbors in the original graph (the `while` search loop is modelled with
fuel that provably suffices). -/

/-- Degree of a vertex: its neighbor-set size. -/
def Graph.degree (G : Graph) (v : Nat) : Nat := (G.adj v).card

/-- Minimum degree over the present vertices. -/
def Graph.minDegVal (G : Graph) (h : G.present.Nonempty) : Nat :=
  (G.present.image G.degree).min' (h.image _)

/-- The popped vertex: least id among the vertices of minimum degree. -/
def Graph.minVertex (G : Graph) (h : G.present.Nonempty) : Nat :=
  (G.present.filter fun w => G.degree w = G.minDegVal h).min' (by
    obtain ⟨w, hw, hdw⟩ :=
      Finset.mem_image.mp ((G.present.image G.degree).min'_mem (h.image _))
    exact ⟨w, Finset.mem_filter.mpr ⟨hw, hdw⟩⟩)

/-- Translation of `GraphWithRecaller::min_degree` (heap peek). -/
def Graph.min_degree (G : Graph) : Option (Nat × Nat) :=
  if h : G.present.Nonempty then some (G.minVertex h, G.minDegVal h) else none

/-- Translation of `GraphWithRecaller::remove_min` (heap pop followed by
`remove_vertex`), returning the popped vertex and the new graph. -/
def Graph.remove_min (G : Graph) : Option (Nat × Graph) :=
  if h : G.present.Nonempty then
    some (G.minVertex h, G.remove_vertex (G.minVertex h))
  else none

theorem Graph.minVertex_mem (G : Graph) (h : G.present.Nonempty) :
    G.minVertex h ∈ G.present := by
  have := Finset.min'_mem (G.present.filter fun w => G.degree w = G.minDegVal h)
    (by
      obtain ⟨w, hw, hdw⟩ :=
        Finset.mem_image.mp ((G.present.image G.degree).min'_mem (h.image _))
      exact ⟨w, Finset.mem_filter.mpr ⟨hw, hdw⟩⟩)
  exact (Finset.mem_filter.mp this).1

theorem Graph.minVertex_degree (G : Graph) (h : G.present.Nonempty) :
    G.degree (G.minVertex h) = G.minDegVal h := by
  have := Finset.min'_mem (G.present.filter fun w => G.degree w = G.minDegVal h)
    (by
      obtain ⟨w, hw, hdw⟩ :=
        Finset.mem_image.mp ((G.present.image G.degree).min'_mem (h.image _))
      exact ⟨w, Finset.mem_filter.mpr ⟨hw, hdw⟩⟩)
  exact (Finset.mem_filter.mp this).2

theorem Graph.minDegVal_le (G : Graph) (h : G.present.Nonempty) (w : Nat)
    (hw : w ∈ G.present) : G.minDegVal h ≤ G.degree w :=
  Finset.min'_le _ _ (Finset.mem_image_of_mem _ hw)

/-- The smallest-last ordering extracted by the `while let` loop of
`color_degeneracy`: repeatedly pop a minimum-degree vertex. -/
def Graph.degeneracyOrder (G : Graph) : List Nat :=
  if h : G.present.Nonempty then
    G.minVertex h :: (G.remove_vertex (G.minVertex h)).degeneracyOrder
  else []
termination_by G.present.card
decreasing_by
  have hmem := G.minVertex_mem h
  simp only [Graph.remove_vertex]
  exact Finset.card_erase_lt_of_mem hmem

/-- Search loop `while neighbor_colors.contains(&color) { color += 1 }`,
with explicit fuel. -/
def mexFrom : Nat → Nat → Finset Nat → Nat
  | 0, c, _ => c
  | fuel + 1, c, used => if c ∈ used then mexFrom fuel (c + 1) used else c

/-- Smallest non-negative integer not in `used` (`used.card + 1` steps of the
search loop always suffice). -/
def mex (used : Finset Nat) : Nat := mexFrom (used.card + 1) 0 used

/-- Greedy pass of `color_degeneracy`: walk the (reversed) ordering, giving
each vertex the smallest color not used by its already-colored neighbors in
the original graph. -/
def Graph.greedyPass (G : Graph) :
    List Nat → (Nat → Option Nat) → (Nat → Option Nat)
  | [], coloring => coloring
  | v :: rest, coloring =>
      G.greedyPass rest (Function.update coloring v
        (some (mex ((G.adj v).biUnion fun u => (coloring u).toFinset))))

/-- Translation of `Colorer::color_degeneracy`: smallest-last ordering,
reversed, then the greedy pass starting from the empty coloring. -/
def Graph.color_degeneracy (G : Graph) : Nat → Option Nat :=
  G.greedyPass G.degeneracyOrder.reverse (fun _ => none)

/-- Well-formedness maintained by building a graph through the undirected
`add_edge`/`remove_edge` interface: absent keys carry no neighbors, neighbor
sets stay inside the key set, adjacency is symmetric, and there are no
self-loops. -/
structure Graph.WF (G : Graph) : Prop where
  adj_outside : ∀ v, v ∉ G.present → G.adj v = ∅
  adj_subset : ∀ v, G.adj v ⊆ G.present
  symm : ∀ x y, x ∈ G.adj y ↔ y ∈ G.adj x
  irrefl : ∀ v, v ∉ G.adj v

/-- `k`-degeneracy: every nonempty induced subgraph has a vertex of induced
degree at most `k`. -/
def Graph.Degenerate (G : Graph) (k : Nat) : Prop :=
  ∀ S : Finset Nat, S ⊆ G.present → S.Nonempty →
    ∃ v ∈ S, ((G.adj v ∩ S).erase v).card ≤ k

theorem Graph.remove_vertex_present (G : Graph) (v : Nat) :
    (G.remove_vertex v).present = G.present.erase v := rfl

/-- Under symmetry, `remove_vertex v` erases `v` pointwise from every other
neighbor set (the source touches only `v`'s neighbors; for a non-neighbor
`w`, symmetry gives `v ∉ adj w`, so the erase is a no-op there). -/
theorem Graph.remove_vertex_adj (G : Graph) (hWF : G.WF) (v w : Nat)
    (hwv : w ≠ v) : (G.remove_vertex v).adj w = (G.adj w).erase v := by
  unfold Graph.remove_vertex
  dsimp only
  rw [if_neg hwv]
  by_cases hw : w ∈ G.adj v
  · rw [if_pos hw]
  · rw [if_neg hw, Finset.erase_eq_of_not_mem]
    intro hvw
    exact hw ((hWF.symm v w).mp hvw)

theorem Graph.remove_vertex_WF (G : Graph) (hWF : G.WF) (v : Nat) :
    (G.remove_vertex v).WF := by
  refine ⟨?_, ?_, ?_, ?_⟩
  · intro w hw
    rw [Graph.remove_vertex_present, Finset.mem_erase] at hw
    push_neg at hw
    by_cases hwv : w = v
    · unfold Graph.remove_vertex
      dsimp only
      rw [if_pos hwv]
    · rw [Graph.remove_vertex_adj G hWF v w hwv, hWF.adj_outside w (hw hwv)]
      exact Finset.erase_empty v
  · intro w x hx
    by_cases hwv : w = v
    · unfold Graph.remove_vertex at hx
      dsimp only at hx
      rw [if_pos hwv] at hx
      exact absurd hx (Finset.not_mem_empty x)
    · rw [Graph.remove_vertex_adj G hWF v w hwv] at hx
      obtain ⟨hxv, hxw⟩ := Finset.mem_erase.mp hx
      rw [Graph.remove_vertex_present, Finset.mem_erase]
      exact ⟨hxv, hWF.adj_subset w hxw⟩
  · intro x y
    have hadjv : (G.remove_vertex v).adj v = ∅ := by
      unfold Graph.remove_vertex
      dsimp only
      rw [if_pos rfl]
    by_cases hxv : x = v
    · constructor
      · intro hx
        by_cases hyv : y = v
        · rw [hxv, hyv]
          rw [hyv, hxv] at hx
          exact hx
        · rw [Graph.remove_vertex_adj G hWF v y hyv] at hx
          exact absurd hxv (Finset.mem_erase.mp hx).1
      · intro hy
        rw [hxv, hadjv] at hy
        exact absurd hy (Finset.not_mem_empty _)
    · by_cases hyv : y = v
      · constructor
        · intro hx
          rw [hyv, hadjv] at hx
          exact absurd hx (Finset.not_mem_empty _)
        · intro hy
          rw [Graph.remove_vertex_adj G hWF v x hxv] at hy
          exact absurd hyv (Finset.mem_erase.mp hy).1
      · rw [Graph.remove_vertex_adj G hWF v y hyv,
          Graph.remove_vertex_adj G hWF v x hxv,
          Finset.mem_erase, Finset.mem_erase]
        constructor
        · rintro ⟨hxv2, hx⟩
          exact ⟨hyv, (hWF.symm x y).mp hx⟩
        · rintro ⟨hyv2, hy⟩
          exact ⟨hxv, (hWF.symm x y).mpr hy⟩
  · intro w
    by_cases hwv : w = v
    · unfold Graph.remove_vertex
      dsimp only
      rw [if_pos hwv]
      exact Finset.not_mem_empty w
    · rw [Graph.remove_vertex_adj G hWF v w hwv]
      intro hw
      exact hWF.irrefl w (Finset.mem_of_mem_erase hw)

theorem Graph.remove_vertex_adj_subset (G : Graph) (v w : Nat) :
    (G.remove_vertex v).adj w ⊆ G.adj w := by
  unfold Graph.remove_vertex
  dsimp only
  split
  · next hwv =>
    subst hwv
    intro x hx
    exact absurd hx (Finset.not_mem_empty x)
  · split
    · exact Finset.erase_subset _ _
    · exact Finset.Subset.refl _

theorem Graph.remove_vertex_degenerate (G : Graph) (k v : Nat)
    (hdeg : G.Degenerate k) : (G.remove_vertex v).Degenerate k := by
  intro S hS hne
  have hS2 : S ⊆ G.present := by
    intro x hx
    exact Finset.mem_of_mem_erase (by
      rw [← Graph.remove_vertex_present G v]
      exact hS hx)
  obtain ⟨w, hw, hcard⟩ := hdeg S hS2 hne
  refine ⟨w, hw, le_trans (Finset.card_le_card ?_) hcard⟩
  apply Finset.erase_subset_erase
  apply Finset.inter_subset_inter_right
  exact Graph.remove_vertex_adj_subset G v w

theorem mexFrom_spec (fuel : Nat) :
    ∀ (c : Nat) (used : Finset Nat), (used.filter fun x => c ≤ x).card < fuel →
      mexFrom fuel c used ∉ used ∧
      mexFrom fuel c used ≤ c + (used.filter fun x => c ≤ x).card := by
  induction fuel with
  | zero =>
    intro c used hcard
    omega
  | succ f ih =>
    intro c used hcard
    rw [mexFrom]
    by_cases hc : c ∈ used
    · rw [if_pos hc]
      have hss : (used.filter fun x => c + 1 ≤ x) ⊂ (used.filter fun x => c ≤ x) := by
        constructor
        · intro x hx
          rw [Finset.mem_filter] at hx ⊢
          exact ⟨hx.1, by omega⟩
        · intro hsub
          have hcmem : c ∈ used.filter fun x => c ≤ x :=
            Finset.mem_filter.mpr ⟨hc, le_refl c⟩
          have := hsub hcmem
          rw [Finset.mem_filter] at this
          omega
      have hlt := Finset.card_lt_card hss
      obtain ⟨h1, h2⟩ := ih (c + 1) used (by omega)
      exact ⟨h1, by omega⟩
    · rw [if_neg hc]
      exact ⟨hc, by omega⟩

theorem mex_not_mem (used : Finset Nat) : mex used ∉ used := by
  have h := mexFrom_spec (used.card + 1) 0 used
    (by
      have : (used.filter fun x => 0 ≤ x) = used := by
        apply Finset.filter_true_of_mem
        intro x _
        omega
      rw [this]
      omega)
  exact h.1

theorem mex_le_card (used : Finset Nat) : mex used ≤ used.card := by
  have heq : (used.filter fun x => 0 ≤ x) = used := by
    apply Finset.filter_true_of_mem
    intro x _
    omega
  have h := mexFrom_spec (used.card + 1) 0 used (by rw [heq]; omega)
  have h2 := h.2
  rw [heq] at h2
  unfold mex
  omega

/-- Structure of the smallest-last ordering: it enumerates exactly the
vertices, without repetition, and — the degeneracy bound — every vertex has
at most `k` neighbors among those extracted after it. -/
theorem degeneracyOrder_spec (k : Nat) :
    ∀ (m : Nat) (H : Graph), H.present.card = m → H.WF → H.Degenerate k →
      ((∀ w, w ∈ H.degeneracyOrder ↔ w ∈ H.present) ∧
       H.degeneracyOrder.Nodup ∧
       (∀ pre v suf, H.degeneracyOrder = pre ++ v :: suf →
          (H.adj v ∩ suf.toFinset).card ≤ k)) := by
  intro m
  induction m using Nat.strong_induction_on with
  | _ m ih =>
    intro H hcard hWF hdeg
    rw [Graph.degeneracyOrder]
    by_cases h : H.present.Nonempty
    · rw [dif_pos h]
      set v0 := H.minVertex h with hv0
      set H2 := H.remove_vertex v0 with hH2
      have hv0mem : v0 ∈ H.present := H.minVertex_mem h
      have hpres2 : H2.present = H.present.erase v0 := rfl
      have hcard2 : H2.present.card < m := by
        rw [hpres2, ← hcard]
        exact Finset.card_erase_lt_of_mem hv0mem
      obtain ⟨ihmem, ihnodup, ihbound⟩ :=
        ih H2.present.card hcard2 H2 rfl (H.remove_vertex_WF hWF v0)
          (H.remove_vertex_degenerate k v0 hdeg)
      have hO2sub : ∀ w, w ∈ H2.degeneracyOrder → w ∈ H.present.erase v0 := by
        intro w hw
        rw [← hpres2]
        exact (ihmem w).mp hw
      refine ⟨?_, ?_, ?_⟩
      · intro w
        rw [List.mem_cons, ihmem w, hpres2, Finset.mem_erase]
        constructor
        · rintro (hw | ⟨-, hw⟩)
          · rw [hw]
            exact hv0mem
          · exact hw
        · intro hw
          by_cases hwv : w = v0
          · exact Or.inl hwv
          · exact Or.inr ⟨hwv, hw⟩
      · rw [List.nodup_cons]
        refine ⟨?_, ihnodup⟩
        intro hmem
        have := hO2sub v0 hmem
        rw [Finset.mem_erase] at this
        exact this.1 rfl
      · intro pre v suf hdecomp
        cases pre with
        | nil =>
          simp only [List.nil_append] at hdecomp
          obtain ⟨hvv0, hsuf⟩ := List.cons.inj hdecomp
          have hdeg_le : H.degree v0 ≤ k := by
            obtain ⟨w, hwP, hwcard⟩ := hdeg H.present (Finset.Subset.refl _) h
            have h1 : H.adj w ∩ H.present = H.adj w :=
              Finset.inter_eq_left.mpr (hWF.adj_subset w)
            rw [h1, Finset.erase_eq_of_not_mem (hWF.irrefl w)] at hwcard
            exact le_trans (H.minVertex_degree h ▸ H.minDegVal_le h w hwP) hwcard
          have hsufset : suf.toFinset ⊆ H.present.erase v0 := by
            intro x hx
            rw [List.mem_toFinset] at hx
            rw [← hsuf] at hx
            exact hO2sub x hx
          have hsub2 : H.adj v ∩ suf.toFinset ⊆ H.adj v0 := by
            rw [← hvv0]
            exact Finset.inter_subset_left
          calc (H.adj v ∩ suf.toFinset).card ≤ (H.adj v0).card := by
                rw [← hvv0] at hsub2 ⊢
                exact Finset.card_le_card hsub2
            _ ≤ k := hdeg_le
        | cons p pre2 =>
          simp only [List.cons_append] at hdecomp
          obtain ⟨hpv0, hrest⟩ := List.cons.inj hdecomp
          have hbound2 := ihbound pre2 v suf hrest
          have hvmem : v ∈ H2.degeneracyOrder := by
            rw [hrest]
            exact List.mem_append_right _ (List.mem_cons_self _ _)
          have hvne : v ≠ v0 := by
            have := hO2sub v hvmem
            rw [Finset.mem_erase] at this
            exact this.1
          have hadj2 : H2.adj v = (H.adj v).erase v0 :=
            H.remove_vertex_adj hWF v0 v hvne
          have hv0nsuf : v0 ∉ suf.toFinset := by
            intro hmem
            rw [List.mem_toFinset] at hmem
            have : v0 ∈ H2.degeneracyOrder := by
              rw [hrest]
              exact List.mem_append_right _ (List.mem_cons_of_mem _ hmem)
            have h2 := hO2sub v0 this
            rw [Finset.mem_erase] at h2
            exact h2.1 rfl
          have hinter : H.adj v ∩ suf.toFinset = H2.adj v ∩ suf.toFinset := by
            rw [hadj2]
            ext x
            rw [Finset.mem_inter, Finset.mem_inter, Finset.mem_erase]
            constructor
            · rintro ⟨hx1, hx2⟩
              refine ⟨⟨?_, hx1⟩, hx2⟩
              intro hxv0
              rw [hxv0] at hx2
              exact hv0nsuf hx2
            · rintro ⟨⟨-, hx1⟩, hx2⟩
              exact ⟨hx1, hx2⟩
          rw [hinter]
          exact hbound2
    · rw [dif_neg h]
      refine ⟨?_, List.nodup_nil, ?_⟩
      · intro w
        simp only [List.not_mem_nil, false_iff]
        intro hw
        exact h ⟨w, hw⟩
      · intro pre v suf hdecomp
        exact absurd hdecomp.symm (List.append_ne_nil_of_right_ne_nil pre (by simp))

theorem usedColors_mem (G : Graph) (coloring : Nat → Option Nat) (v c : Nat) :
    c ∈ ((G.adj v).biUnion fun u => (coloring u).toFinset) ↔
      ∃ u ∈ G.adj v, coloring u = some c := by
  simp [Option.mem_toFinset, Option.mem_def]

theorem usedColors_card_le (G : Graph) (coloring : Nat → Option Nat)
    (v : Nat) (D : Finset Nat)
    (hdom : ∀ w, (coloring w).isSome ↔ w ∈ D) :
    ((G.adj v).biUnion fun u => (coloring u).toFinset).card ≤
      (G.adj v ∩ D).card := by
  calc ((G.adj v).biUnion fun u => (coloring u).toFinset).card
      ≤ ∑ u ∈ G.adj v, ((coloring u).toFinset).card :=
        Finset.card_biUnion_le
    _ ≤ ∑ u ∈ G.adj v, (if u ∈ D then 1 else 0) := by
        apply Finset.sum_le_sum
        intro u hu
        by_cases hD : u ∈ D
        · rw [if_pos hD]
          cases hcu : coloring u with
          | none => simp
          | some c => simp
        · rw [if_neg hD]
          have : ¬ (coloring u).isSome := fun hs => hD ((hdom u).mp hs)
          cases hcu : coloring u with
          | none => simp
          | some c =>
            rw [hcu] at this
            simp at this
    _ = ((G.adj v).filter fun u => u ∈ D).card := (Finset.card_filter _ _).symm
    _ = (G.adj v ∩ D).card := by
        rw [Finset.filter_mem_eq_inter]

/-- Invariant-carrying specification of the greedy pass: starting from an
accumulated coloring `acc` that colors exactly `D` properly with colors
`≤ k`, and with every list vertex having at most `k` neighbors among the
vertices colored before it, the pass colors exactly `D ∪ L`, stays proper,
and stays within colors `≤ k`. -/
theorem greedyPass_spec (G : Graph) (k : Nat)
    (hsymm : ∀ x y, x ∈ G.adj y ↔ y ∈ G.adj x)
    (hirr : ∀ x, x ∉ G.adj x) :
    ∀ (L : List Nat) (acc : Nat → Option Nat) (D : Finset Nat),
      L.Nodup → (∀ v ∈ L, v ∉ D) →
      (∀ w, (acc w).isSome ↔ w ∈ D) →
      (∀ x y, y ∈ G.adj x → x ∈ D → y ∈ D → acc x ≠ acc y) →
      (∀ w c, acc w = some c → c ≤ k) →
      (∀ pre v suf, L = pre ++ v :: suf →
        (G.adj v ∩ (D ∪ pre.toFinset)).card ≤ k) →
      ((∀ w, ((G.greedyPass L acc) w).isSome ↔ (w ∈ D ∨ w ∈ L)) ∧
       (∀ x y, y ∈ G.adj x → (x ∈ D ∨ x ∈ L) → (y ∈ D ∨ y ∈ L) →
          G.greedyPass L acc x ≠ G.greedyPass L acc y) ∧
       (∀ w c, G.greedyPass L acc w = some c → c ≤ k)) := by
  intro L
  induction L with
  | nil =>
    intro acc D hnodup hdisj hdom hprop hbound hB
    rw [Graph.greedyPass]
    refine ⟨?_, ?_, ?_⟩
    · intro w
      rw [hdom w]
      simp
    · intro x y hadj hx hy
      simp only [List.not_mem_nil, or_false] at hx hy
      exact hprop x y hadj hx hy
    · exact hbound
  | cons v rest ih =>
    intro acc D hnodup hdisj hdom hprop hbound hB
    rw [Graph.greedyPass]
    set used := (G.adj v).biUnion fun u => (acc u).toFinset with hused
    set color := mex used with hcolor
    set acc2 := Function.update acc v (some color) with hacc2
    have hvD : v ∉ D := hdisj v (List.mem_cons_self _ _)
    have hcol_notin : color ∉ used := mex_not_mem used
    have hcol_le : color ≤ k := by
      have h1 : used.card ≤ (G.adj v ∩ D).card :=
        usedColors_card_le G acc v D hdom
      have h2 : (G.adj v ∩ (D ∪ ([] : List Nat).toFinset)).card ≤ k :=
        hB [] v rest rfl
      simp only [List.toFinset_nil, Finset.union_empty] at h2
      have := mex_le_card used
      omega
    have hacc2v : acc2 v = some color := by
      rw [hacc2]
      simp [Function.update]
    have hacc2ne : ∀ w, w ≠ v → acc2 w = acc w := by
      intro w hw
      rw [hacc2]
      simp [Function.update, hw]
    have hnodup2 : rest.Nodup := (List.nodup_cons.mp hnodup).2
    have hvrest : v ∉ rest := (List.nodup_cons.mp hnodup).1
    have hdisj2 : ∀ w ∈ rest, w ∉ insert v D := by
      intro w hw
      rw [Finset.mem_insert]
      push_neg
      exact ⟨fun hwv => hvrest (hwv ▸ hw), hdisj w (List.mem_cons_of_mem _ hw)⟩
    have hdom2 : ∀ w, (acc2 w).isSome ↔ w ∈ insert v D := by
      intro w
      by_cases hwv : w = v
      · rw [hwv, hacc2v]
        simp
      · rw [hacc2ne w hwv, Finset.mem_insert]
        rw [hdom w]
        constructor
        · exact Or.inr
        · rintro (h | h)
          · exact absurd h hwv
          · exact h
    have hprop2 : ∀ x y, y ∈ G.adj x → x ∈ insert v D → y ∈ insert v D →
        acc2 x ≠ acc2 y := by
      intro x y hadj hx hy
      rcases Finset.mem_insert.mp hx with hxv | hxD <;>
        rcases Finset.mem_insert.mp hy with hyv | hyD
      · exfalso
        rw [hxv, hyv] at hadj
        exact hirr v hadj
      · rw [hxv, hacc2v, hacc2ne y (fun h => hvD (h ▸ hyD))]
        obtain ⟨cy, hcy⟩ := Option.isSome_iff_exists.mp ((hdom y).mpr hyD)
        rw [hcy]
        intro hc
        have : cy ∈ used := by
          rw [hused, usedColors_mem]
          refine ⟨y, ?_, hcy⟩
          rw [← hxv]
          exact hadj
        rw [← Option.some_inj.mp hc] at this
        exact hcol_notin this
      · rw [hyv, hacc2v, hacc2ne x (fun h => hvD (h ▸ hxD))]
        obtain ⟨cx, hcx⟩ := Option.isSome_iff_exists.mp ((hdom x).mpr hxD)
        rw [hcx]
        intro hc
        have : cx ∈ used := by
          rw [hused, usedColors_mem]
          refine ⟨x, ?_, hcx⟩
          rw [hyv] at hadj
          exact (hsymm x v).mpr hadj
        rw [Option.some_inj.mp hc] at this
        exact hcol_notin this
      · rw [hacc2ne x (fun h => hvD (h ▸ hxD)), hacc2ne y (fun h => hvD (h ▸ hyD))]
        exact hprop x y hadj hxD hyD
    have hbound2 : ∀ w c, acc2 w = some c → c ≤ k := by
      intro w c hw
      by_cases hwv : w = v
      · rw [hwv, hacc2v] at hw
        rw [← Option.some_inj.mp hw]
        exact hcol_le
      · rw [hacc2ne w hwv] at hw
        exact hbound w c hw
    have hB2 : ∀ pre w suf, rest = pre ++ w :: suf →
        (G.adj w ∩ (insert v D ∪ pre.toFinset)).card ≤ k := by
      intro pre w suf hdecomp
      have hdecomp2 : v :: rest = (v :: pre) ++ w :: suf := by
        rw [hdecomp]
        rfl
      have := hB (v :: pre) w suf hdecomp2
      have hsets : D ∪ (v :: pre).toFinset = insert v D ∪ pre.toFinset := by
        ext x
        simp [List.toFinset_cons]
      rwa [hsets] at this
    obtain ⟨ihdom, ihprop, ihbound⟩ :=
      ih acc2 (insert v D) hnodup2 hdisj2 hdom2 hprop2 hbound2 hB2
    refine ⟨?_, ?_, ?_⟩
    · intro w
      rw [ihdom w, Finset.mem_insert, List.mem_cons]
      tauto
    · intro x y hadj hx hy
      apply ihprop x y hadj
      · rcases hx with hx | hx
        · exact Or.inl (Finset.mem_insert_of_mem hx)
        · rcases List.mem_cons.mp hx with hx2 | hx2
          · exact Or.inl (hx2 ▸ Finset.mem_insert_self _ _)
          · exact Or.inr hx2
      · rcases hy with hy | hy
        · exact Or.inl (Finset.mem_insert_of_mem hy)
        · rcases List.mem_cons.mp hy with hy2 | hy2
          · exact Or.inl (hy2 ▸ Finset.mem_insert_self _ _)
          · exact Or.inr hy2
    · exact ihbound

/-- C1 (confirmed): on a well-formed undirected graph (as built through the
`add_edge` interface) of degeneracy at most `k`, `color_degeneracy` colors
every vertex, the coloring is proper, and every color is at most `k` — so at
most `k + 1` distinct colors occur. -/
theorem color_degeneracy_proper_bounded (G : Graph) (k : Nat)
    (hWF : G.WF) (hdeg : G.Degenerate k) :
    (∀ v ∈ G.present, ∃ c, G.color_degeneracy v = some c) ∧
    (∀ x y, y ∈ G.adj x → G.color_degeneracy x ≠ G.color_degeneracy y) ∧
    (∀ v c, G.color_degeneracy v = some c → c ≤ k) := by
  obtain ⟨hmem, hnodup, hbound⟩ :=
    degeneracyOrder_spec k G.present.card G rfl hWF hdeg
  have hLnodup : G.degeneracyOrder.reverse.Nodup := List.nodup_reverse.mpr hnodup
  have hLmem : ∀ w, w ∈ G.degeneracyOrder.reverse ↔ w ∈ G.present := by
    intro w
    rw [List.mem_reverse]
    exact hmem w
  have hB : ∀ pre v suf, G.degeneracyOrder.reverse = pre ++ v :: suf →
      (G.adj v ∩ ((∅ : Finset Nat) ∪ pre.toFinset)).card ≤ k := by
    intro pre v suf hdecomp
    have hO2 : G.degeneracyOrder = suf.reverse ++ v :: pre.reverse := by
      have h1 := congrArg List.reverse hdecomp
      rw [List.reverse_reverse] at h1
      rw [h1]
      simp
    have := hbound suf.reverse v pre.reverse hO2
    have htf : pre.reverse.toFinset = pre.toFinset := by
      ext x
      simp
    rw [htf] at this
    simpa using this
  obtain ⟨gdom, gprop, gbound⟩ :=
    greedyPass_spec G k hWF.symm hWF.irrefl G.degeneracyOrder.reverse
      (fun _ => none) ∅ hLnodup (by simp) (by simp)
      (by
        intro x y hadj hx hy
        exact absurd hx (Finset.not_mem_empty x))
      (by
        intro w c hc
        exact absurd hc (by simp))
      hB
  have hcd : G.color_degeneracy =
      G.greedyPass G.degeneracyOrder.reverse (fun _ => none) := rfl
  refine ⟨?_, ?_, ?_⟩
  · intro v hv
    rw [hcd]
    have := (gdom v).mpr (Or.inr ((hLmem v).mpr hv))
    exact Option.isSome_iff_exists.mp this
  · intro x y hadj
    rw [hcd]
    have hxP : x ∈ G.present := by
      by_contra hxP
      rw [hWF.adj_outside x hxP] at hadj
      exact Finset.not_mem_empty y hadj
    have hyP : y ∈ G.present := hWF.adj_subset x hadj
    exact gprop x y hadj (Or.inr ((hLmem x).mpr hxP))
      (Or.inr ((hLmem y).mpr hyP))
  · intro v c hc
    rw [hcd] at hc
    exact gbound v c hc

/-- The triangle on `{0, 1, 2}` (spec scenario E5), used as the concrete
witness graph for the degeneracy colorer. -/
def triangleGraph : Graph :=
  ⟨{0, 1, 2}, fun v =>
    if v = 0 then {1, 2}
    else if v = 1 then {0, 2}
    else if v = 2 then {0, 1}
    else ∅⟩

theorem triangleGraph_WF : triangleGraph.WF := by
  have hadj0 : triangleGraph.adj 0 = {1, 2} := rfl
  have hadj1 : triangleGraph.adj 1 = {0, 2} := rfl
  have hadj2 : triangleGraph.adj 2 = {0, 1} := rfl
  have hadjo : ∀ v, v ≠ 0 → v ≠ 1 → v ≠ 2 → triangleGraph.adj v = ∅ := by
    intro v h0 h1 h2
    show (if v = 0 then _ else if v = 1 then _ else if v = 2 then _ else ∅) = ∅
    rw [if_neg h0, if_neg h1, if_neg h2]
  have key : ∀ x y, x ∈ triangleGraph.adj y → y ∈ triangleGraph.adj x := by
    intro x y hxy
    by_cases h0 : y = 0
    · subst h0
      rw [hadj0] at hxy
      simp at hxy
      rcases hxy with rfl | rfl <;> decide
    · by_cases h1 : y = 1
      · subst h1
        rw [hadj1] at hxy
        simp at hxy
        rcases hxy with rfl | rfl <;> decide
      · by_cases h2 : y = 2
        · subst h2
          rw [hadj2] at hxy
          simp at hxy
          rcases hxy with rfl | rfl <;> decide
        · rw [hadjo y h0 h1 h2] at hxy
          exact absurd hxy (Finset.not_mem_empty x)
  refine ⟨?_, ?_, ?_, ?_⟩
  · intro v hv
    have : v ≠ 0 ∧ v ≠ 1 ∧ v ≠ 2 := by
      by_contra hcon
      push_neg at hcon
      apply hv
      by_cases hv0 : v = 0
      · rw [hv0]; decide
      · by_cases hv1 : v = 1
        · rw [hv1]; decide
        · rw [hcon hv0 hv1]; decide
    exact hadjo v this.1 this.2.1 this.2.2
  · intro v x hx
    by_cases h0 : v = 0
    · subst h0
      rw [hadj0] at hx
      simp at hx
      rcases hx with rfl | rfl <;> decide
    · by_cases h1 : v = 1
      · subst h1
        rw [hadj1] at hx
        simp at hx
        rcases hx with rfl | rfl <;> decide
      · by_cases h2 : v = 2
        · subst h2
          rw [hadj2] at hx
          simp at hx
          rcases hx with rfl | rfl <;> decide
        · rw [hadjo v h0 h1 h2] at hx
          exact absurd hx (Finset.not_mem_empty x)
  · intro x y
    exact ⟨key x y, key y x⟩
  · intro v hv
    by_cases h0 : v = 0
    · subst h0
      exact absurd hv (by decide)
    · by_cases h1 : v = 1
      · subst h1
        exact absurd hv (by decide)
      · by_cases h2 : v = 2
        · subst h2
          exact absurd hv (by decide)
        · rw [hadjo v h0 h1 h2] at hv
          exact Finset.not_mem_empty v hv

theorem triangleGraph_degenerate : triangleGraph.Degenerate 2 := by
  intro S hS hne
  obtain ⟨v, hv⟩ := hne
  refine ⟨v, hv, ?_⟩
  have h1 : ((triangleGraph.adj v ∩ S).erase v).card ≤ (triangleGraph.adj v).card :=
    Finset.card_le_card ((Finset.erase_subset _ _).trans Finset.inter_subset_left)
  have h2 : (triangleGraph.adj v).card ≤ 2 := by
    have hv3 := hS hv
    simp [triangleGraph] at hv3
    rcases hv3 with rfl | rfl | rfl <;> decide
  omega

/-- Witness for `color_degeneracy_proper_bounded`: the triangle (degeneracy
2) gets a total proper coloring with every color at most `2`. -/
theorem color_degeneracy_proper_bounded_witness :
    (∃ c, triangleGraph.color_degeneracy 0 = some c) ∧
    triangleGraph.color_degeneracy 0 ≠ triangleGraph.color_degeneracy 1 ∧
    (∀ v c, triangleGraph.color_degeneracy v = some c → c ≤ 2) := by
  have h := color_degeneracy_proper_bounded triangleGraph 2
    triangleGraph_WF triangleGraph_degenerate
  exact ⟨h.1 0 (by decide), h.2.1 0 1 (by decide), h.2.2⟩
